import Mathlib

/-!
Verification of the text-processing core of the `bamboo-forest` Slack
translation bot (Go, `main.go`): UTF-8-safe byte-bounded message splitting,
script-based language detection, currency/laughter placeholder protection and
restoration, and the surrounding control flow.

Go strings are byte sequences; the splitter works on raw bytes, so it is
modelled on `List Nat` (each element a byte value).  The regex-based
protection passes work on decoded runes, so they are modelled on `List Char`.
-/

set_option maxHeartbeats 1000000
set_option maxRecDepth 100000

namespace BambooForest

/-- A Go byte string: a list of byte values. -/
abbrev ByteStr := List Nat

/-- `isUTF8Continuation` from main.go: a UTF-8 continuation byte has the bit
pattern `10xxxxxx`, i.e. `(b & 0xC0) == 0x80`. -/
def isUTF8Continuation (b : Nat) : Bool := b &&& 0xC0 == 0x80

/-- The newline-searching loop of `splitByNewlineChunk`:
`for cut > minB && data[cut] != '\n' { cut-- }`, started at `cut = maxB`. -/
def newlineScan (data : ByteStr) (minB : Nat) (c : Nat) : Nat :=
  if c > minB ∧ data.getD c 0 ≠ 10 then newlineScan data minB (c - 1) else c
termination_by c
decreasing_by omega

/-- The cut candidate after the newline scan and the
`if cut <= minB { cut = maxB }` reset in `splitByNewlineChunk`. -/
def nlCut (data : ByteStr) (minB maxB : Nat) : Nat :=
  let cut := newlineScan data minB maxB
  if cut ≤ minB then maxB else cut

/-- The UTF-8 boundary adjustment loop of `splitByNewlineChunk`:
`for cut > 0 && isUTF8Continuation(data[cut]) { cut-- }`. -/
def contBack (data : ByteStr) (c : Nat) : Nat :=
  if 0 < c ∧ isUTF8Continuation (data.getD c 0) then contBack data (c - 1)
  else c
termination_by c
decreasing_by omega

/-- The cut position actually used by one iteration of the splitting loop. -/
def goCut (data : ByteStr) (minB maxB : Nat) : Nat :=
  contBack data (nlCut data minB maxB)

/-- The `for len(data) > 0` loop of `splitByNewlineChunk`.  When the computed
cut is `0` the Go loop appends empty chunks forever without consuming input;
that divergence is modelled as `none`. -/
def splitLoop (data : ByteStr) (minB maxB : Nat) : Option (List ByteStr) :=
  if _h0 : data.length = 0 then some []
  else if data.length ≤ maxB then some [data]
  else
    let cut := goCut data minB maxB
    if _hc : cut = 0 then none
    else (splitLoop (data.drop cut) minB maxB).map (data.take cut :: ·)
termination_by data.length
decreasing_by
  simp only [List.length_drop]
  omega

/-- `splitByNewlineChunk` from main.go.  Messages of at most `maxB` bytes are
returned unsplit; otherwise the loop repeatedly cuts a chunk. -/
def splitByNewlineChunk (msg : ByteStr) (minB maxB : Nat) : Option (List ByteStr) :=
  if msg.length ≤ maxB then some [msg] else splitLoop msg minB maxB

/-- Byte length of a UTF-8 character starting with lead byte `b`
(0 when `b` is a continuation byte or not a valid lead byte). -/
def utf8Len (b : Nat) : Nat :=
  if b < 0x80 then 1
  else if b < 0xC0 then 0
  else if b < 0xE0 then 2
  else if b < 0xF0 then 3
  else if b < 0xF8 then 4
  else 0

/-- Structural UTF-8 validity of a byte sequence (as for Go `utf8.Valid`):
each character is a valid lead byte followed by the right number of
continuation bytes. -/
def validUTF8 : ByteStr -> Bool
  | [] => true
  | b :: rest =>
    let n := utf8Len b
    n != 0 && ((rest.take (n - 1)).length == n - 1)
      && (rest.take (n - 1)).all isUTF8Continuation
      && validUTF8 (rest.drop (n - 1))
termination_by d => d.length
decreasing_by
  simp only [List.length_drop, List.length_cons]
  omega

/-- Inductive view of `validUTF8`: the byte string is a sequence of
well-formed UTF-8 characters. -/
inductive UTF8Chars : ByteStr -> Prop
  | nil : UTF8Chars []
  | ascii {b : Nat} {rest : ByteStr} :
      b < 0x80 -> UTF8Chars rest -> UTF8Chars (b :: rest)
  | two {b b1 : Nat} {rest : ByteStr} :
      0xC0 <= b -> b < 0xE0 -> isUTF8Continuation b1 = true ->
      UTF8Chars rest -> UTF8Chars (b :: b1 :: rest)
  | three {b b1 b2 : Nat} {rest : ByteStr} :
      0xE0 <= b -> b < 0xF0 -> isUTF8Continuation b1 = true ->
      isUTF8Continuation b2 = true -> UTF8Chars rest ->
      UTF8Chars (b :: b1 :: b2 :: rest)
  | four {b b1 b2 b3 : Nat} {rest : ByteStr} :
      0xF0 <= b -> b < 0xF8 -> isUTF8Continuation b1 = true ->
      isUTF8Continuation b2 = true -> isUTF8Continuation b3 = true ->
      UTF8Chars rest -> UTF8Chars (b :: b1 :: b2 :: b3 :: rest)

theorem UTF8Chars_of_validUTF8 :
    ∀ (k : Nat) (d : ByteStr), d.length <= k -> validUTF8 d = true -> UTF8Chars d := by
  intro k
  induction k with
  | zero =>
    intro d hlen _
    have : d = [] := List.length_eq_zero.mp (Nat.le_zero.mp hlen)
    subst this
    exact UTF8Chars.nil
  | succ k ih =>
    intro d hlen hv
    match d with
    | [] => exact UTF8Chars.nil
    | b :: rest =>
      rw [validUTF8] at hv
      simp only [Bool.and_eq_true, bne_iff_ne, ne_eq, beq_iff_eq,
        List.all_eq_true, List.length_take] at hv
      obtain ⟨⟨⟨hn0, hmin⟩, hcont⟩, hrec⟩ := hv
      simp only [List.length_cons] at hlen
      rcases Nat.lt_or_ge b 0x80 with hb | hb
      · -- 1-byte character
        have hn : utf8Len b = 1 := by rw [utf8Len, if_pos hb]
        rw [hn] at hrec
        have hrec' : validUTF8 rest = true := by simpa using hrec
        exact UTF8Chars.ascii hb (ih rest (by omega) hrec')
      rcases Nat.lt_or_ge b 0xC0 with hb2 | hb2
      · -- continuation byte in lead position: utf8Len = 0
        exfalso
        apply hn0
        rw [utf8Len, if_neg (by omega), if_pos hb2]
      rcases Nat.lt_or_ge b 0xE0 with hb3 | hb3
      · -- 2-byte character
        have hn : utf8Len b = 2 := by
          rw [utf8Len, if_neg (by omega), if_neg (by omega), if_pos hb3]
        rw [hn] at hmin hcont hrec
        match rest, hmin with
        | b1 :: rest', _ =>
          simp only [List.take_succ_cons, List.take_zero, List.mem_singleton,
            forall_eq] at hcont
          simp only [List.drop_succ_cons, List.drop_zero] at hrec
          exact UTF8Chars.two hb2 hb3 hcont (ih rest' (by simp at hlen; omega) hrec)
      rcases Nat.lt_or_ge b 0xF0 with hb4 | hb4
      · -- 3-byte character
        have hn : utf8Len b = 3 := by
          rw [utf8Len, if_neg (by omega), if_neg (by omega), if_neg (by omega),
            if_pos hb4]
        rw [hn] at hmin hcont hrec
        match rest, hmin with
        | b1 :: b2 :: rest', _ =>
          simp only [List.take_succ_cons, List.take_zero, List.mem_cons,
            List.mem_singleton, forall_eq_or_imp, forall_eq,
            List.not_mem_nil, false_implies, and_true] at hcont
          simp only [List.drop_succ_cons, List.drop_zero] at hrec
          exact UTF8Chars.three hb3 hb4 hcont.1 hcont.2.1
            (ih rest' (by simp at hlen; omega) hrec)
      rcases Nat.lt_or_ge b 0xF8 with hb5 | hb5
      · -- 4-byte character
        have hn : utf8Len b = 4 := by
          rw [utf8Len, if_neg (by omega), if_neg (by omega), if_neg (by omega),
            if_neg (by omega), if_pos hb5]
        rw [hn] at hmin hcont hrec
        match rest, hmin with
        | b1 :: b2 :: b3 :: rest', _ =>
          simp only [List.take_succ_cons, List.take_zero, List.mem_cons,
            List.mem_singleton, forall_eq_or_imp, forall_eq,
            List.not_mem_nil, false_implies, and_true] at hcont
          simp only [List.drop_succ_cons, List.drop_zero] at hrec
          exact UTF8Chars.four hb4 hb5 hcont.1 hcont.2.1 hcont.2.2.1
            (ih rest' (by simp at hlen; omega) hrec)
      · -- invalid lead byte >= 0xF8
        exfalso
        apply hn0
        rw [utf8Len, if_neg (by omega), if_neg (by omega), if_neg (by omega),
          if_neg (by omega), if_neg (by omega)]

theorem validUTF8_of_UTF8Chars {d : ByteStr} (h : UTF8Chars d) :
    validUTF8 d = true := by
  induction h with
  | nil => rw [validUTF8]
  | ascii hb h ih =>
    rename_i b rest
    rw [validUTF8]
    have hn : utf8Len b = 1 := by rw [utf8Len, if_pos hb]
    rw [hn]
    simpa using ih
  | two hb hb2 hc h ih =>
    rename_i b b1 rest
    rw [validUTF8]
    have hn : utf8Len b = 2 := by
      rw [utf8Len, if_neg (by omega), if_neg (by omega), if_pos hb2]
    rw [hn]
    simp [hc, ih]
  | three hb hb2 hc1 hc2 h ih =>
    rename_i b b1 b2 rest
    rw [validUTF8]
    have hn : utf8Len b = 3 := by
      rw [utf8Len, if_neg (by omega), if_neg (by omega), if_neg (by omega),
        if_pos hb2]
    rw [hn]
    simp [hc1, hc2, ih]
  | four hb hb2 hc1 hc2 hc3 h ih =>
    rename_i b b1 b2 b3 rest
    rw [validUTF8]
    have hn : utf8Len b = 4 := by
      rw [utf8Len, if_neg (by omega), if_neg (by omega), if_neg (by omega),
        if_neg (by omega), if_pos hb2]
    rw [hn]
    simp [hc1, hc2, hc3, ih]

theorem validUTF8_iff_UTF8Chars (d : ByteStr) :
    validUTF8 d = true ↔ UTF8Chars d :=
  ⟨fun h => UTF8Chars_of_validUTF8 d.length d (Nat.le_refl _) h,
   validUTF8_of_UTF8Chars⟩

/-- On bytes, `(b & 0xC0) == 0x80` says exactly that `b` lies in
`[0x80, 0xC0)`; stated with `decide` so that concrete byte values reduce. -/
theorem isUTF8Continuation_eval (b : Nat) (hb : b < 256) :
    isUTF8Continuation b = (decide (0x80 ≤ b) && decide (b < 0xC0)) := by
  revert hb
  revert b
  decide

theorem newlineScan_le (data : ByteStr) (minB : Nat) :
    ∀ c, newlineScan data minB c ≤ c := by
  intro c
  induction c using Nat.strong_induction_on with
  | _ c ih =>
    rw [newlineScan]
    split
    · next h => exact Nat.le_trans (ih (c - 1) (by omega)) (by omega)
    · exact Nat.le_refl _

theorem nlCut_le (data : ByteStr) (minB maxB : Nat) :
    nlCut data minB maxB ≤ maxB := by
  rw [nlCut]
  split
  · exact Nat.le_refl _
  · exact newlineScan_le data minB maxB

theorem contBack_le (data : ByteStr) : ∀ c, contBack data c ≤ c := by
  intro c
  induction c using Nat.strong_induction_on with
  | _ c ih =>
    rw [contBack]
    split
    · next h => exact Nat.le_trans (ih (c - 1) (by omega)) (by omega)
    · exact Nat.le_refl _

theorem contBack_spec (data : ByteStr) :
    ∀ c, contBack data c = 0 ∨
      isUTF8Continuation (data.getD (contBack data c) 0) = false := by
  intro c
  induction c using Nat.strong_induction_on with
  | _ c ih =>
    rw [contBack]
    split
    · next h => exact ih (c - 1) (by omega)
    · next h =>
      rcases not_and_or.mp h with h1 | h1
      · left; omega
      · right; exact Bool.eq_false_iff.mpr h1

theorem goCut_le (data : ByteStr) (minB maxB : Nat) :
    goCut data minB maxB ≤ maxB :=
  Nat.le_trans (contBack_le data _) (nlCut_le data minB maxB)

/-- Splitting a valid UTF-8 byte string at a position whose byte is not a
continuation byte (or at the very end) leaves two valid UTF-8 halves. -/
theorem UTF8Chars_take_drop {d : ByteStr} (h : UTF8Chars d) :
    ∀ p, p ≤ d.length →
      (p = d.length ∨ isUTF8Continuation (d.getD p 0) = false) →
      UTF8Chars (d.take p) ∧ UTF8Chars (d.drop p) := by
  induction h with
  | nil =>
    intro p hp _
    simp only [List.length_nil, Nat.le_zero] at hp
    subst hp
    exact ⟨UTF8Chars.nil, UTF8Chars.nil⟩
  | ascii hb h ih =>
    rename_i b rest
    intro p hp hcond
    match p with
    | 0 => exact ⟨UTF8Chars.nil, UTF8Chars.ascii hb h⟩
    | p + 1 =>
      have hih := ih p (by simp only [List.length_cons] at hp; omega)
        (by
          rcases hcond with h1 | h1
          · left; simp only [List.length_cons] at h1; omega
          · right; simpa using h1)
      exact ⟨UTF8Chars.ascii hb hih.1, hih.2⟩
  | two hb hb2 hc h ih =>
    rename_i b b1 rest
    intro p hp hcond
    match p with
    | 0 => exact ⟨UTF8Chars.nil, UTF8Chars.two hb hb2 hc h⟩
    | 1 =>
      exfalso
      rcases hcond with h1 | h1
      · simp only [List.length_cons] at h1; omega
      · simp only [List.getD_cons_succ, List.getD_cons_zero] at h1
        rw [hc] at h1
        exact Bool.true_eq_false.mp h1
    | p + 2 =>
      have hih := ih p (by simp only [List.length_cons] at hp; omega)
        (by
          rcases hcond with h1 | h1
          · left; simp only [List.length_cons] at h1; omega
          · right; simpa using h1)
      exact ⟨UTF8Chars.two hb hb2 hc hih.1, hih.2⟩
  | three hb hb2 hc1 hc2 h ih =>
    rename_i b b1 b2 rest
    intro p hp hcond
    match p with
    | 0 => exact ⟨UTF8Chars.nil, UTF8Chars.three hb hb2 hc1 hc2 h⟩
    | 1 =>
      exfalso
      rcases hcond with h1 | h1
      · simp only [List.length_cons] at h1; omega
      · simp only [List.getD_cons_succ, List.getD_cons_zero] at h1
        rw [hc1] at h1
        exact Bool.true_eq_false.mp h1
    | 2 =>
      exfalso
      rcases hcond with h1 | h1
      · simp only [List.length_cons] at h1; omega
      · simp only [List.getD_cons_succ, List.getD_cons_zero] at h1
        rw [hc2] at h1
        exact Bool.true_eq_false.mp h1
    | p + 3 =>
      have hih := ih p (by simp only [List.length_cons] at hp; omega)
        (by
          rcases hcond with h1 | h1
          · left; simp only [List.length_cons] at h1; omega
          · right; simpa using h1)
      exact ⟨UTF8Chars.three hb hb2 hc1 hc2 hih.1, hih.2⟩
  | four hb hb2 hc1 hc2 hc3 h ih =>
    rename_i b b1 b2 b3 rest
    intro p hp hcond
    match p with
    | 0 => exact ⟨UTF8Chars.nil, UTF8Chars.four hb hb2 hc1 hc2 hc3 h⟩
    | 1 =>
      exfalso
      rcases hcond with h1 | h1
      · simp only [List.length_cons] at h1; omega
      · simp only [List.getD_cons_succ, List.getD_cons_zero] at h1
        rw [hc1] at h1
        exact Bool.true_eq_false.mp h1
    | 2 =>
      exfalso
      rcases hcond with h1 | h1
      · simp only [List.length_cons] at h1; omega
      · simp only [List.getD_cons_succ, List.getD_cons_zero] at h1
        rw [hc2] at h1
        exact Bool.true_eq_false.mp h1
    | 3 =>
      exfalso
      rcases hcond with h1 | h1
      · simp only [List.length_cons] at h1; omega
      · simp only [List.getD_cons_succ, List.getD_cons_zero] at h1
        rw [hc3] at h1
        exact Bool.true_eq_false.mp h1
    | p + 4 =>
      have hih := ih p (by simp only [List.length_cons] at hp; omega)
        (by
          rcases hcond with h1 | h1
          · left; simp only [List.length_cons] at h1; omega
          · right; simpa using h1)
      exact ⟨UTF8Chars.four hb hb2 hc1 hc2 hc3 hih.1, hih.2⟩

theorem splitLoop_valid :
    ∀ (k : Nat) (data : ByteStr), data.length ≤ k →
      validUTF8 data = true →
      ∀ (minB maxB : Nat) (parts : List ByteStr),
        splitLoop data minB maxB = some parts →
        ∀ part ∈ parts, validUTF8 part = true := by
  intro k
  induction k with
  | zero =>
    intro data hlen _ minB maxB parts hs
    have hd : data = [] := List.length_eq_zero.mp (Nat.le_zero.mp hlen)
    subst hd
    rw [splitLoop] at hs
    simp only [List.length_nil, if_pos rfl] at hs
    cases hs
    intro part hpart
    exact absurd hpart (List.not_mem_nil part)
  | succ k ih =>
    intro data hlen hv minB maxB parts hs
    by_cases h0 : data.length = 0
    · rw [splitLoop, dif_pos h0] at hs
      cases hs
      intro part hpart
      exact absurd hpart (List.not_mem_nil part)
    by_cases hm : data.length ≤ maxB
    · rw [splitLoop, dif_neg h0, if_pos hm] at hs
      cases hs
      intro part hpart
      rw [List.mem_singleton] at hpart
      subst hpart
      exact hv
    by_cases hc : goCut data minB maxB = 0
    · rw [splitLoop, dif_neg h0, if_neg hm] at hs
      simp only [dif_pos hc] at hs
      exact absurd hs (by simp)
    · rw [splitLoop, dif_neg h0, if_neg hm] at hs
      simp only [dif_neg hc, Option.map_eq_some'] at hs
      obtain ⟨parts', hparts', rfl⟩ := hs
      have hcut_le : goCut data minB maxB ≤ maxB := goCut_le data minB maxB
      have hcut_lt : goCut data minB maxB < data.length := by omega
      have hchars : UTF8Chars data := (validUTF8_iff_UTF8Chars data).mp hv
      have hsplit2 := UTF8Chars_take_drop hchars (goCut data minB maxB)
        (Nat.le_of_lt hcut_lt)
        (by
          right
          rcases contBack_spec data (nlCut data minB maxB) with h1 | h1
          · exact absurd h1 hc
          · exact h1)
      intro part hpart
      rcases List.mem_cons.mp hpart with h1 | h1
      · subst h1
        exact (validUTF8_iff_UTF8Chars _).mpr hsplit2.1
      · exact ih (data.drop (goCut data minB maxB))
          (by simp only [List.length_drop]; omega)
          ((validUTF8_iff_UTF8Chars _).mpr hsplit2.2)
          minB maxB parts' hparts' part h1

/-- C1: for every valid UTF-8 input message and bounds `0 < minB < maxB`,
every cut made by `splitByNewlineChunk` falls on a UTF-8 character boundary:
no returned chunk ends in the middle of a multi-byte character and no chunk
begins with a continuation byte, so each returned chunk is itself valid
UTF-8.  (When the loop diverges — possible only for cut positions forced to
0 — no list is returned and there are no chunks.) -/
theorem C1_split_chunks_valid_utf8
    (msg : ByteStr) (minB maxB : Nat) (parts : List ByteStr)
    (_hmin : 0 < minB) (_hminmax : minB < maxB)
    (hvalid : validUTF8 msg = true)
    (hsplit : splitByNewlineChunk msg minB maxB = some parts) :
    ∀ part ∈ parts, validUTF8 part = true := by
  rw [splitByNewlineChunk] at hsplit
  split_ifs at hsplit with hle
  · cases hsplit
    intro part hpart
    rw [List.mem_singleton] at hpart
    subst hpart
    exact hvalid
  · exact splitLoop_valid msg.length msg (Nat.le_refl _) hvalid
      minB maxB parts hsplit

/-- Witness for C1 at a concrete input: splitting the valid UTF-8 message
"a\nb€" with bounds (1, 3) cuts before the euro sign, and the chunk produced
by the theorem is valid UTF-8. -/
theorem C1_witness : validUTF8 [0xE2, 0x82, 0xAC] = true :=
  C1_split_chunks_valid_utf8 [0x61, 0x0A, 0x62, 0xE2, 0x82, 0xAC] 1 3
    [[0x61, 0x0A, 0x62], [0xE2, 0x82, 0xAC]] (by decide) (by decide)
    (by simp [validUTF8, utf8Len, isUTF8Continuation_eval])
    (by simp [splitByNewlineChunk, splitLoop, goCut, nlCut, newlineScan,
      contBack, isUTF8Continuation_eval])
    [0xE2, 0x82, 0xAC] (by simp)

theorem splitLoop_join :
    ∀ (k : Nat) (data : ByteStr), data.length ≤ k →
      ∀ (minB maxB : Nat) (parts : List ByteStr),
        splitLoop data minB maxB = some parts → parts.flatten = data := by
  intro k
  induction k with
  | zero =>
    intro data hlen minB maxB parts hs
    have hd : data = [] := List.length_eq_zero.mp (Nat.le_zero.mp hlen)
    subst hd
    rw [splitLoop] at hs
    simp only [List.length_nil, if_pos rfl] at hs
    cases hs
    rfl
  | succ k ih =>
    intro data hlen minB maxB parts hs
    by_cases h0 : data.length = 0
    · rw [splitLoop, dif_pos h0] at hs
      cases hs
      exact (List.length_eq_zero.mp h0).symm
    by_cases hm : data.length ≤ maxB
    · rw [splitLoop, dif_neg h0, if_pos hm] at hs
      cases hs
      simp
    by_cases hc : goCut data minB maxB = 0
    · rw [splitLoop, dif_neg h0, if_neg hm] at hs
      simp only [dif_pos hc] at hs
      exact absurd hs (by simp)
    · rw [splitLoop, dif_neg h0, if_neg hm] at hs
      simp only [dif_neg hc, Option.map_eq_some'] at hs
      obtain ⟨parts', hparts', rfl⟩ := hs
      have hj := ih (data.drop (goCut data minB maxB))
        (by simp only [List.length_drop]; omega) minB maxB parts' hparts'
      simp only [List.flatten_cons, hj, List.take_append_drop]

/-- C8: concatenating the returned chunks in order restores the original
message byte for byte, the returned list is never empty, and the empty
message yields exactly one empty chunk.  (On inputs where the loop diverges
nothing is returned, so the statement is conditional on a result.) -/
theorem C8_split_concat_id
    (msg : ByteStr) (minB maxB : Nat) (parts : List ByteStr)
    (_hmin : 0 < minB) (_hminmax : minB < maxB)
    (hsplit : splitByNewlineChunk msg minB maxB = some parts) :
    parts.flatten = msg ∧ parts ≠ [] ∧
      splitByNewlineChunk [] minB maxB = some [[]] := by
  refine ⟨?_, ?_, ?_⟩
  · rw [splitByNewlineChunk] at hsplit
    split_ifs at hsplit with hle
    · cases hsplit; simp
    · exact splitLoop_join msg.length msg (Nat.le_refl _) minB maxB parts hsplit
  · rw [splitByNewlineChunk] at hsplit
    split_ifs at hsplit with hle
    · cases hsplit; simp
    · intro hnil
      subst hnil
      have := splitLoop_join msg.length msg (Nat.le_refl _) minB maxB [] hsplit
      simp only [List.flatten_nil] at this
      rw [← this] at hle
      exact hle (by simp)
  · rw [splitByNewlineChunk]
    simp

/-- Witness for C8 at a concrete input. -/
theorem C8_witness :
    List.flatten [[0x61, 0x0A, 0x62], [0xE2, 0x82, 0xAC]]
        = [0x61, 0x0A, 0x62, 0xE2, 0x82, 0xAC] ∧
      ([[0x61, 0x0A, 0x62], [0xE2, 0x82, 0xAC]] : List ByteStr) ≠ [] ∧
      splitByNewlineChunk [] 1 3 = some [[]] :=
  C8_split_concat_id [0x61, 0x0A, 0x62, 0xE2, 0x82, 0xAC] 1 3
    [[0x61, 0x0A, 0x62], [0xE2, 0x82, 0xAC]] (by decide) (by decide)
    (by simp [splitByNewlineChunk, splitLoop, goCut, nlCut, newlineScan,
      contBack, isUTF8Continuation_eval])

/-- Spec-side description of the cut point (C2's words): the index of the
last newline byte at an index in `(minB, maxB]` of the remaining data when
such a newline exists, and `maxB` otherwise, then moved backward past any
UTF-8 continuation bytes. -/
def lastNewlineIdx (data : ByteStr) (minB maxB : Nat) : Nat :=
  Nat.findGreatest (fun i => minB < i ∧ data.getD i 0 = 10) maxB

/-- Spec-side cut position.  `lastNewlineIdx = 0` holds exactly when no
newline lies at an index in `(minB, maxB]`. -/
def specCut (data : ByteStr) (minB maxB : Nat) : Nat :=
  let j := lastNewlineIdx data minB maxB
  if j = 0 then contBack data maxB else j

theorem newlineScan_of_no_newline (data : ByteStr) (minB : Nat) :
    ∀ c, minB ≤ c → (∀ i, minB < i → i ≤ c → data.getD i 0 ≠ 10) →
      newlineScan data minB c = minB := by
  intro c
  induction c using Nat.strong_induction_on with
  | _ c ih =>
    intro hle hno
    rw [newlineScan]
    rcases Nat.eq_or_lt_of_le hle with heq | hlt
    · rw [if_neg (by omega)]
      omega
    · rw [if_pos ⟨hlt, hno c hlt (Nat.le_refl c)⟩]
      exact ih (c - 1) (by omega) (by omega)
        (fun i h1 h2 => hno i h1 (by omega))

theorem newlineScan_of_newline (data : ByteStr) (minB j : Nat)
    (hj : minB < j) (hnl : data.getD j 0 = 10) :
    ∀ c, j ≤ c → (∀ i, j < i → i ≤ c → data.getD i 0 ≠ 10) →
      newlineScan data minB c = j := by
  intro c
  induction c using Nat.strong_induction_on with
  | _ c ih =>
    intro hle hno
    rw [newlineScan]
    rcases Nat.eq_or_lt_of_le hle with heq | hlt
    · subst heq
      rw [if_neg (fun h => h.2 hnl)]
    · rw [if_pos ⟨by omega, hno c hlt (Nat.le_refl c)⟩]
      exact ih (c - 1) (by omega) (by omega)
        (fun i h1 h2 => hno i h1 (by omega))

/-- The Go newline scan plus reset computes exactly the spec-side
"last newline in `(minB, maxB]`, else `maxB`" choice. -/
theorem nlCut_eq_spec (data : ByteStr) (minB maxB : Nat)
    (hmm : minB < maxB) :
    nlCut data minB maxB =
      (if lastNewlineIdx data minB maxB = 0 then maxB
       else lastNewlineIdx data minB maxB) := by
  have hspec := Nat.findGreatest_eq_iff.mp
    (show Nat.findGreatest (fun i => minB < i ∧ data.getD i 0 = 10) maxB =
      lastNewlineIdx data minB maxB from rfl)
  obtain ⟨hle, hP, hmax⟩ := hspec
  by_cases hj : lastNewlineIdx data minB maxB = 0
  · rw [if_pos hj]
    rw [hj] at hmax
    have hno : ∀ i, minB < i → i ≤ maxB → data.getD i 0 ≠ 10 := by
      intro i h1 h2 hnl
      exact hmax (by omega) h2 ⟨h1, hnl⟩
    rw [nlCut]
    simp only [newlineScan_of_no_newline data minB maxB (Nat.le_of_lt hmm) hno,
      if_pos (Nat.le_refl minB)]
  · rw [if_neg hj]
    obtain ⟨hgt, hnl⟩ := hP hj
    have hno : ∀ i, lastNewlineIdx data minB maxB < i → i ≤ maxB →
        data.getD i 0 ≠ 10 := by
      intro i h1 h2 hnl2
      exact hmax h1 h2 ⟨by omega, hnl2⟩
    rw [nlCut]
    simp only [newlineScan_of_newline data minB _ hgt hnl maxB hle hno]
    rw [if_neg (by omega)]

/-- The code's cut equals the spec-side cut: when a newline is found the
continuation-byte back-off is a no-op (a newline byte is not a continuation
byte), and otherwise the back-off is applied to `maxB`. -/
theorem goCut_eq_specCut (data : ByteStr) (minB maxB : Nat)
    (hmm : minB < maxB) :
    goCut data minB maxB = specCut data minB maxB := by
  rw [goCut, specCut, nlCut_eq_spec data minB maxB hmm]
  by_cases hj : lastNewlineIdx data minB maxB = 0
  · simp only [if_pos hj]
  · simp only [if_neg hj]
    obtain ⟨_, hP, _⟩ := Nat.findGreatest_eq_iff.mp
      (show Nat.findGreatest (fun i => minB < i ∧ data.getD i 0 = 10) maxB =
        lastNewlineIdx data minB maxB from rfl)
    obtain ⟨hgt, hnl⟩ := hP hj
    rw [contBack, if_neg]
    intro hcontr
    rw [hnl] at hcontr
    exact absurd hcontr.2 (by decide)

theorem splitLoop_chunk_len :
    ∀ (k : Nat) (data : ByteStr), data.length ≤ k →
      ∀ (minB maxB : Nat) (parts : List ByteStr),
        splitLoop data minB maxB = some parts →
        ∀ part ∈ parts, part.length ≤ maxB := by
  intro k
  induction k with
  | zero =>
    intro data hlen minB maxB parts hs
    have hd : data = [] := List.length_eq_zero.mp (Nat.le_zero.mp hlen)
    subst hd
    rw [splitLoop] at hs
    simp only [List.length_nil, if_pos rfl] at hs
    cases hs
    intro part hpart
    exact absurd hpart (List.not_mem_nil part)
  | succ k ih =>
    intro data hlen minB maxB parts hs
    by_cases h0 : data.length = 0
    · rw [splitLoop, dif_pos h0] at hs
      cases hs
      intro part hpart
      exact absurd hpart (List.not_mem_nil part)
    by_cases hm : data.length ≤ maxB
    · rw [splitLoop, dif_neg h0, if_pos hm] at hs
      cases hs
      intro part hpart
      rw [List.mem_singleton] at hpart
      subst hpart
      exact hm
    by_cases hc : goCut data minB maxB = 0
    · rw [splitLoop, dif_neg h0, if_neg hm] at hs
      simp only [dif_pos hc] at hs
      exact absurd hs (by simp)
    · rw [splitLoop, dif_neg h0, if_neg hm] at hs
      simp only [dif_neg hc, Option.map_eq_some'] at hs
      obtain ⟨parts', hparts', rfl⟩ := hs
      intro part hpart
      rcases List.mem_cons.mp hpart with h1 | h1
      · subst h1
        simp only [List.length_take]
        have := goCut_le data minB maxB
        omega
      · exact ih (data.drop (goCut data minB maxB))
          (by simp only [List.length_drop]; omega)
          minB maxB parts' hparts' part h1

/-- C2: a message of at most `maxB` bytes is returned unsplit as a single
chunk; every returned chunk has byte length at most `maxB`; and on each loop
iteration (remaining data longer than `maxB` bytes) the cut position used by
the code is exactly the spec-side one — the last newline byte at an index in
`(minB, maxB]` when one exists, and otherwise `maxB` moved backward past any
UTF-8 continuation bytes — after which the loop emits `data[:cut]` and
continues with `data[cut:]`. -/
theorem C2_split_cut_characterization (minB maxB : Nat)
    (_hmin : 0 < minB) (hminmax : minB < maxB) :
    (∀ msg : ByteStr, msg.length ≤ maxB →
        splitByNewlineChunk msg minB maxB = some [msg]) ∧
    (∀ (msg : ByteStr) (parts : List ByteStr),
        splitByNewlineChunk msg minB maxB = some parts →
        ∀ part ∈ parts, part.length ≤ maxB) ∧
    (∀ data : ByteStr, maxB < data.length →
        goCut data minB maxB = specCut data minB maxB) ∧
    (∀ data : ByteStr, maxB < data.length → goCut data minB maxB ≠ 0 →
        splitLoop data minB maxB =
          (splitLoop (data.drop (goCut data minB maxB)) minB maxB).map
            (data.take (goCut data minB maxB) :: ·)) := by
  refine ⟨?_, ?_, ?_, ?_⟩
  · intro msg hle
    rw [splitByNewlineChunk, if_pos hle]
  · intro msg parts hs
    rw [splitByNewlineChunk] at hs
    split_ifs at hs with hle
    · cases hs
      intro part hpart
      rw [List.mem_singleton] at hpart
      subst hpart
      exact hle
    · exact splitLoop_chunk_len msg.length msg (Nat.le_refl _) minB maxB parts hs
  · intro data _
    exact goCut_eq_specCut data minB maxB hminmax
  · intro data hlen hc
    rw [splitLoop, dif_neg (by omega), if_neg (by omega)]
    simp only [dif_neg hc]

/-- Witness for C2 at concrete inputs. -/
theorem C2_witness :
    splitByNewlineChunk [0x61] 1 3 = some [[0x61]] :=
  (C2_split_cut_characterization 1 3 (by decide) (by decide)).1 [0x61] (by simp)

/-- Closed numeric range check on code points. -/
def inRange (lo hi n : Nat) : Bool := decide (lo ≤ n ∧ n ≤ hi)

/-- Character class of Go's `\p{Hangul}`: the full code-point table of
`unicode.Hangul` — Jamo, tone marks, compatibility Jamo, parenthesised and
circled Hangul, Jamo Extended-A/B, syllables, and halfwidth forms. -/
def isHangulChar (c : Char) : Bool :=
  let n := c.toNat
  inRange 0x1100 0x11FF n || inRange 0x302E 0x302F n ||
  inRange 0x3131 0x318E n || inRange 0x3200 0x321E n ||
  inRange 0x3260 0x327E n || inRange 0xA960 0xA97C n ||
  inRange 0xAC00 0xD7A3 n || inRange 0xD7B0 0xD7C6 n ||
  inRange 0xD7CB 0xD7FB n || inRange 0xFFA0 0xFFBE n ||
  inRange 0xFFC2 0xFFC7 n || inRange 0xFFCA 0xFFCF n ||
  inRange 0xFFD2 0xFFD7 n || inRange 0xFFDA 0xFFDC n

/-- Character class of Go's `[\p{Hiragana}\p{Katakana}]`: the full
code-point tables of `unicode.Hiragana` and `unicode.Katakana` (Unicode
15.0.0, as shipped by current Go) — the base blocks and iteration marks,
phonetic extensions, circled and squared Katakana words, halfwidth forms,
the Kana Extended-A/B and Kana Supplement blocks (archaic letters and
Hentaigana), the Small Kana Extension block, and the squared hiragana
sign. -/
def isKanaChar (c : Char) : Bool :=
  let n := c.toNat
  inRange 0x3041 0x3096 n || inRange 0x309D 0x309F n ||
  inRange 0x1B001 0x1B11F n || inRange 0x1B132 0x1B132 n ||
  inRange 0x1B150 0x1B152 n || inRange 0x1F200 0x1F200 n ||
  inRange 0x30A1 0x30FA n || inRange 0x30FD 0x30FF n ||
  inRange 0x31F0 0x31FF n || inRange 0x32D0 0x32FE n ||
  inRange 0x3300 0x3357 n || inRange 0xFF66 0xFF6F n ||
  inRange 0xFF71 0xFF9D n || inRange 0x1AFF0 0x1AFF3 n ||
  inRange 0x1AFF5 0x1AFFB n || inRange 0x1AFFD 0x1AFFE n ||
  inRange 0x1B000 0x1B000 n || inRange 0x1B120 0x1B122 n ||
  inRange 0x1B155 0x1B155 n || inRange 0x1B164 0x1B167 n

/-- `koreanRegex.MatchString s`: `s` contains at least one Hangul character. -/
def hasHangul (s : List Char) : Bool := s.any isHangulChar

/-- `japaneseRegex.MatchString s`: `s` contains at least one Hiragana or
Katakana character. -/
def hasKana (s : List Char) : Bool := s.any isKanaChar

/-- `determineLang` from main.go: Korean-only text is translated to
Japanese, Japanese-only text to Korean, anything else is skipped. -/
def determineLang (s : List Char) : String :=
  let hasKorean := hasHangul s
  let hasJapanese := hasKana s
  if hasKorean && hasJapanese then ""
  else if hasKorean then "ja"
  else if hasJapanese then "ko"
  else ""

/-- C3: `determineLang` returns "ja" iff the text has a Hangul character and
no Hiragana/Katakana character, "ko" iff it has a Hiragana/Katakana
character and no Hangul character, and "" (skip) iff both scripts are
present or neither is. -/
theorem C3_determineLang_characterization (s : List Char) :
    (determineLang s = "ja" ↔
      ((∃ c ∈ s, isHangulChar c = true) ∧ ∀ c ∈ s, isKanaChar c = false)) ∧
    (determineLang s = "ko" ↔
      ((∃ c ∈ s, isKanaChar c = true) ∧ ∀ c ∈ s, isHangulChar c = false)) ∧
    (determineLang s = "" ↔
      (((∃ c ∈ s, isHangulChar c = true) ∧ (∃ c ∈ s, isKanaChar c = true)) ∨
       ((∀ c ∈ s, isHangulChar c = false) ∧ ∀ c ∈ s, isKanaChar c = false))) := by
  have hH := @List.any_eq_true Char isHangulChar s
  have hHf := @List.any_eq_false Char isHangulChar s
  have hK := @List.any_eq_true Char isKanaChar s
  have hKf := @List.any_eq_false Char isKanaChar s
  rcases hhan : hasHangul s with _ | _ <;> rcases hkan : hasKana s with _ | _ <;>
    rw [hasHangul] at hhan <;> rw [hasKana] at hkan <;>
    simp only [determineLang, hasHangul, hasKana, hhan, hkan] <;>
    simp_all [Bool.not_eq_true]

/-- The fields of `slackevents.MessageEvent` that `processMessage` reads. -/
structure MessageEvent where
  botID : String
  text : List Char
  channel : String
  timeStamp : String
  threadTimeStamp : String

/-- Outcome of the guard section of `processMessage`: `skipped` models
`return nil` before any translation-API call or Slack post; `proceed lang`
models continuing into the translate-and-post pipeline with target
language `lang`. -/
inductive ProcessDecision
  | skipped
  | proceed (lang : String)
deriving DecidableEq

/-- The guard logic of `processMessage` (bot check, then language check),
translated from main.go. -/
def processMessageGate (ev : MessageEvent) : ProcessDecision :=
  if ev.botID ≠ "" then ProcessDecision.skipped
  else
    let lang := determineLang ev.text
    if lang = "" then ProcessDecision.skipped else ProcessDecision.proceed lang

/-- C10: `processMessage` returns nil — calling neither the translation API
nor `PostMessage` — whenever the event has a non-empty `BotID` or
`determineLang` of its text is empty. -/
theorem C10_processMessage_skips (ev : MessageEvent)
    (h : ev.botID ≠ "" ∨ determineLang ev.text = "") :
    processMessageGate ev = ProcessDecision.skipped := by
  rw [processMessageGate]
  rcases h with h | h
  · rw [if_pos h]
  · split_ifs with h1
    · rfl
    · simp [h]

/-- Witness for C10: a bot-authored message is skipped, and a message
containing both scripts — the Katakana side only via the squared-Katakana
character U+3300 — is skipped. -/
theorem C10_witness :
    processMessageGate ⟨"B123", "안녕".toList, "C1", "1", ""⟩
        = ProcessDecision.skipped ∧
      processMessageGate ⟨"", "안녕㌀".toList, "C1", "1", ""⟩
        = ProcessDecision.skipped :=
  ⟨C10_processMessage_skips _ (Or.inl (by decide)),
   C10_processMessage_skips _ (Or.inr (by decide))⟩

/-- Abstract view of the single HTTP response that `translateChunks` reads:
the status code, and the list of `translatedText` fields when the body
unmarshals (`none` models a `json.Unmarshal` failure). -/
structure TranslateResponse where
  status : Nat
  parsed : Option (List (List Char))

/-- The error cases of `translateChunks` after the request is made. -/
inductive TranslateError
  | httpStatus (status : Nat)
  | unmarshal
  | countMismatch (requested got : Nat)
deriving DecidableEq

/-- The response-processing tail of `translateChunks`, as a pure function of
the one HTTP response consumed per invocation: a non-200 status is an
error, an unparsable body is an error, a translation count differing from
the requested chunk count is an error, and otherwise exactly the received
translations are returned, in response order. -/
def translateChunksResult (chunks : List (List Char))
    (resp : TranslateResponse) : Except TranslateError (List (List Char)) :=
  if resp.status ≠ 200 then Except.error (TranslateError.httpStatus resp.status)
  else
    match resp.parsed with
    | none => Except.error TranslateError.unmarshal
    | some ts =>
      if ts.length ≠ chunks.length then
        Except.error (TranslateError.countMismatch chunks.length ts.length)
      else Except.ok ts

/-- C7: `translateChunks` consumes exactly one HTTP response per invocation
and returns an error — never a partial result — when the status is not
200 OK or the translation count differs from the chunk count; on success it
returns exactly one translation per input chunk, in response order. -/
theorem C7_translateChunks_error_handling (chunks : List (List Char))
    (resp : TranslateResponse) :
    (resp.status ≠ 200 →
      ∃ e, translateChunksResult chunks resp = Except.error e) ∧
    (∀ ts, resp.parsed = some ts → ts.length ≠ chunks.length →
      ∃ e, translateChunksResult chunks resp = Except.error e) ∧
    (∀ ts, resp.status = 200 → resp.parsed = some ts →
      ts.length = chunks.length →
      translateChunksResult chunks resp = Except.ok ts) := by
  refine ⟨?_, ?_, ?_⟩
  · intro h
    exact ⟨TranslateError.httpStatus resp.status,
      by rw [translateChunksResult, if_pos h]⟩
  · intro ts hts hlen
    rw [translateChunksResult]
    split_ifs with h1
    · exact ⟨TranslateError.httpStatus resp.status, rfl⟩
    · rw [hts]
      exact ⟨TranslateError.countMismatch chunks.length ts.length,
        by simp only [if_pos hlen]⟩
  · intro ts hst hts hlen
    rw [translateChunksResult, if_neg (by simp [hst]), hts]
    simp only []
    rw [if_neg (by simp [hlen])]

/-- Witness for C7 at concrete inputs: a 500 status produces an error, and a
well-formed 200 response yields the translations in order. -/
theorem C7_witness :
    (∃ e, translateChunksResult ["ab".toList] ⟨500, some []⟩ = Except.error e) ∧
      translateChunksResult ["ab".toList] ⟨200, some ["x".toList]⟩
        = Except.ok ["x".toList] :=
  ⟨(C7_translateChunks_error_handling ["ab".toList] ⟨500, some []⟩).1
      (by decide),
   (C7_translateChunks_error_handling ["ab".toList]
      ⟨200, some ["x".toList]⟩).2.2 ["x".toList] rfl rfl (by decide)⟩

/-! ### Strings, decimal rendering and placeholders

The protection passes build placeholder strings with
`fmt.Sprintf("__CUR%d__", i)` / `fmt.Sprintf("__LAU%d__", i)` and restore
them with `strings.ReplaceAll`.  Texts are modelled as `List Char` (decoded
runes). -/

/-- The decimal digit character for `d` (`0 ≤ d ≤ 9`). -/
def digitChar (d : Nat) : Char := Char.ofNat (48 + d)

/-- Decimal representation of `n`, most significant digit first, as produced
by Go's `fmt.Sprintf("%d", n)`. -/
def natDigits (n : Nat) : List Char :=
  if n < 10 then [digitChar n]
  else natDigits (n / 10) ++ [digitChar (n % 10)]
termination_by n
decreasing_by exact Nat.div_lt_self (by omega) (by omega)

/-- Numeric value of a digit string, inverse to `natDigits`. -/
def digitsVal (ds : List Char) : Nat :=
  ds.foldl (fun a c => 10 * a + (c.toNat - 48)) 0

/-- A character is a decimal digit. -/
def isDigitChar (c : Char) : Bool := decide (48 ≤ c.toNat ∧ c.toNat ≤ 57)

theorem digitChar_toNat (d : Nat) (hd : d < 10) : (digitChar d).toNat = 48 + d := by
  revert hd
  revert d
  decide

theorem natDigits_ne_nil (n : Nat) : natDigits n ≠ [] := by
  rw [natDigits]
  split <;> simp

theorem natDigits_all_digit (n : Nat) :
    ∀ c ∈ natDigits n, isDigitChar c = true := by
  induction n using Nat.strong_induction_on with
  | _ n ih =>
    rw [natDigits]
    split
    · next h =>
      intro c hc
      rw [List.mem_singleton] at hc
      subst hc
      rw [isDigitChar, digitChar_toNat n h]
      simp
      omega
    · next h =>
      intro c hc
      rcases List.mem_append.mp hc with h1 | h1
      · exact ih (n / 10) (Nat.div_lt_self (by omega) (by omega)) c h1
      · rw [List.mem_singleton] at h1
        subst h1
        rw [isDigitChar, digitChar_toNat (n % 10) (Nat.mod_lt n (by omega))]
        simp
        omega

theorem digitsVal_natDigits (n : Nat) : digitsVal (natDigits n) = n := by
  induction n using Nat.strong_induction_on with
  | _ n ih =>
    rw [natDigits]
    split
    · next h =>
      rw [digitsVal]
      simp [digitChar_toNat n h]
    · next h =>
      rw [digitsVal, List.foldl_concat]
      have := ih (n / 10) (Nat.div_lt_self (by omega) (by omega))
      rw [digitsVal] at this
      rw [this, digitChar_toNat (n % 10) (Nat.mod_lt n (by omega))]
      omega

theorem natDigits_inj {m n : Nat} (h : natDigits m = natDigits n) : m = n := by
  have hm := digitsVal_natDigits m
  have hn := digitsVal_natDigits n
  rw [h] at hm
  omega

/-- A placeholder string `"__" ++ tag ++ decimal i ++ "__"`, with `tag` the
protection-pass tag ("CUR" or "LAU"). -/
def phStr (tag : List Char) (i : Nat) : List Char :=
  '_' :: '_' :: (tag ++ natDigits i ++ ['_', '_'])

/-- A usable placeholder tag: non-empty, and made of characters that are
neither underscores nor decimal digits (as for "CUR" and "LAU"). -/
def TagOK (tag : List Char) : Prop :=
  tag ≠ [] ∧ ∀ c ∈ tag, c ≠ '_' ∧ isDigitChar c = false

/-- Go `strings.ReplaceAll s pat rep`: replaces non-overlapping leftmost
occurrences of `pat`, scanning left to right; for the empty pattern Go
inserts `rep` before every character and at the end. -/
def replaceAll (s pat rep : List Char) : List Char :=
  if _hp : pat = [] then rep ++ s.flatMap (fun c => c :: rep)
  else
    match s with
    | [] => []
    | c :: rest =>
      if pat.isPrefixOf (c :: rest) then
        rep ++ replaceAll ((c :: rest).drop pat.length) pat rep
      else c :: replaceAll rest pat rep
termination_by s.length
decreasing_by
  · simp only [List.length_drop, List.length_cons]
    have : pat.length ≠ 0 := fun hl => _hp (List.length_eq_zero.mp hl)
    omega
  · simp

/-- Does `pat` occur as a contiguous substring of `s`? -/
def occurs (pat : List Char) : List Char → Bool
  | [] => pat.isPrefixOf []
  | c :: rest => pat.isPrefixOf (c :: rest) || occurs pat rest

/-- Number of non-overlapping leftmost occurrences of a non-empty `pat`. -/
def countOcc (s pat : List Char) : Nat :=
  if _hp : pat = [] then 0
  else
    match s with
    | [] => 0
    | c :: rest =>
      if pat.isPrefixOf (c :: rest) then
        1 + countOcc ((c :: rest).drop pat.length) pat
      else countOcc rest pat
termination_by s.length
decreasing_by
  · simp only [List.length_drop, List.length_cons]
    have : pat.length ≠ 0 := fun hl => _hp (List.length_eq_zero.mp hl)
    omega
  · simp

theorem occurs_iff (pat : List Char) (s : List Char) :
    occurs pat s = true ↔ ∃ x y, s = x ++ pat ++ y := by
  induction s with
  | nil =>
    rw [occurs]
    rw [List.isPrefixOf_iff_prefix]
    constructor
    · intro h
      exact ⟨[], [], by simpa using (List.prefix_nil.mp h).symm⟩
    · rintro ⟨x, y, hxy⟩
      have : pat = [] :=
        (List.append_eq_nil.mp (List.append_eq_nil.mp hxy.symm).1).2
      simp [this]
  | cons c rest ih =>
    rw [occurs]
    simp only [Bool.or_eq_true, List.isPrefixOf_iff_prefix, ih]
    constructor
    · rintro (⟨t, ht⟩ | ⟨x, y, hxy⟩)
      · exact ⟨[], t, by simp [← ht]⟩
      · exact ⟨c :: x, y, by simp [hxy]⟩
    · rintro ⟨x, y, hxy⟩
      match x, hxy with
      | [], hxy =>
        left
        exact ⟨y, by simpa using hxy.symm⟩
      | x1 :: x', hxy =>
        right
        rw [List.cons_append, List.cons_append] at hxy
        cases hxy
        exact ⟨x', y, rfl⟩

theorem occurs_eq_false_iff (pat : List Char) (s : List Char) :
    occurs pat s = false ↔ ∀ x y, s ≠ x ++ pat ++ y := by
  rw [← Bool.not_eq_true, occurs_iff]
  push_neg
  rfl

theorem getD_mem_of_lt {l : List Char} {n : Nat} (h : n < l.length) (d : Char) :
    l.getD n d ∈ l := by
  rw [List.getD_eq_getElem?_getD, List.getElem?_eq_getElem h]
  exact List.getElem_mem h

theorem phStr_length (tag : List Char) (i : Nat) :
    (phStr tag i).length = tag.length + (natDigits i).length + 4 := by
  simp [phStr]
  omega

theorem phStr_ne_nil (tag : List Char) (i : Nat) : phStr tag i ≠ [] := by
  simp [phStr]

/-- Position of any occurrence of `tag` in a literal-then-placeholder-led
string: if `tag` does not occur in `a` and `tail` is empty or starts with a
placeholder, then any occurrence of `tag` in `a ++ tail` begins at least two
characters past the end of `a` (inside the placeholder, after its leading
underscores). -/
theorem tag_occurrence_position
    {tag a tail x y : List Char} (htag : TagOK tag)
    (hocc : occurs tag a = false)
    (htail : tail = [] ∨ ∃ (j : Nat) (r : List Char), tail = phStr tag j ++ r)
    (he : a ++ tail = x ++ (tag ++ y)) :
    a.length + 2 ≤ x.length := by
  obtain ⟨htne, hchars⟩ := htag
  have htlen : 0 < tag.length := List.length_pos.mpr htne
  by_contra hcon
  push_neg at hcon
  have hlen : a.length + tail.length = x.length + (tag.length + y.length) := by
    have := congrArg List.length he
    simpa using this
  by_cases hin : x.length + tag.length ≤ a.length
  · -- the occurrence would lie fully inside `a`
    have ha : a = List.take a.length (x ++ (tag ++ y)) := by
      rw [← he, List.take_left]
    rw [List.take_append_eq_append_take, List.take_append_eq_append_take] at ha
    rw [List.take_of_length_le (by omega), List.take_of_length_le (by omega)] at ha
    have : occurs tag a = true := by
      rw [occurs_iff]
      exact ⟨x, List.take (a.length - x.length - tag.length) y,
        by rw [ha]; simp [List.append_assoc]⟩
    rw [this] at hocc
    exact absurd hocc (by simp)
  · push_neg at hin
    rcases htail with rfl | ⟨j, r, rfl⟩
    · simp only [List.length_nil] at hlen
      omega
    · have hd0 : (a ++ (phStr tag j ++ r)).getD a.length ' ' = '_' := by
        rw [List.getD_append_right _ _ _ _ (Nat.le_refl _)]
        simp [phStr]
      have hd1 : (a ++ (phStr tag j ++ r)).getD (a.length + 1) ' ' = '_' := by
        rw [List.getD_append_right _ _ _ _ (by omega)]
        have : a.length + 1 - a.length = 1 := by omega
        rw [this]
        simp [phStr]
      have htagAt : ∀ u, u < tag.length →
          (x ++ (tag ++ y)).getD (x.length + u) ' ' = tag.getD u ' ' := by
        intro u hu
        rw [List.getD_append_right _ _ _ _ (by omega)]
        have : x.length + u - x.length = u := by omega
        rw [this]
        rw [List.getD_append _ _ _ _ hu]
      by_cases hxa : x.length < a.length
      · have hu : a.length - x.length < tag.length := by omega
        have h1 := htagAt (a.length - x.length) hu
        rw [show x.length + (a.length - x.length) = a.length by omega] at h1
        rw [← he] at h1
        rw [hd0] at h1
        have hmem := getD_mem_of_lt hu ' '
        rw [← h1] at hmem
        exact absurd rfl (hchars _ hmem).1
      · push_neg at hxa
        have h1 := htagAt 0 htlen
        rcases Nat.eq_or_lt_of_le hxa with heq | hlt
        · rw [Nat.add_zero, ← heq, ← he, hd0] at h1
          have hmem := getD_mem_of_lt htlen ' '
          rw [← h1] at hmem
          exact absurd rfl (hchars _ hmem).1
        · have hx1 : x.length = a.length + 1 := by omega
          rw [Nat.add_zero, hx1, ← he, hd1] at h1
          have hmem := getD_mem_of_lt htlen ' '
          rw [← h1] at hmem
          exact absurd rfl (hchars _ hmem).1

/-- `replaceAll` passes over a segment in which no occurrence of the
pattern starts. -/
theorem replaceAll_append_no_pref (p r : List Char) (hp : p ≠ []) :
    ∀ (A B : List Char),
      (∀ k, k < A.length → ¬ p.isPrefixOf ((A ++ B).drop k) = true) →
      replaceAll (A ++ B) p r = A ++ replaceAll B p r := by
  intro A
  induction A with
  | nil => intro B _; simp
  | cons c A2 ih =>
    intro B hno
    rw [List.cons_append, replaceAll, dif_neg hp]
    rw [if_neg (by have := hno 0 (by simp); simpa using this)]
    rw [List.cons_append]
    congr 1
    exact ih B (fun k hk => by
      have := hno (k + 1) (by simp only [List.length_cons]; omega)
      simpa using this)

/-- `replaceAll` fires on a leading occurrence of the pattern. -/
theorem replaceAll_fire (p r t : List Char) (hp : p ≠ []) :
    replaceAll (p ++ t) p r = r ++ replaceAll t p r := by
  obtain ⟨q, p2, rfl⟩ : ∃ q p2, p = q :: p2 := by
    cases p with
    | nil => exact absurd rfl hp
    | cons q p2 => exact ⟨q, p2, rfl⟩
  rw [List.cons_append, replaceAll, dif_neg hp]
  rw [if_pos (by
    rw [← List.cons_append, List.isPrefixOf_iff_prefix]
    exact List.prefix_append _ t)]
  rw [← List.cons_append, List.drop_left]

/-- `replaceAll` leaves a pattern-free string unchanged. -/
theorem replaceAll_of_no_occurrence (p r : List Char) (hp : p ≠ [])
    (A : List Char)
    (hno : ∀ k, k < A.length → ¬ p.isPrefixOf (A.drop k) = true) :
    replaceAll A p r = A := by
  have h := replaceAll_append_no_pref p r hp A []
    (fun k hk => by simpa using hno k hk)
  simp only [List.append_nil] at h
  rw [h, replaceAll, dif_neg hp]
  simp

theorem underscore_not_digit : isDigitChar '_' = false := by decide

/-- Two digit strings followed by a double underscore determine each other. -/
theorem digits_underscore_eq :
    ∀ (d1 d2 X Y : List Char),
      (∀ c ∈ d1, isDigitChar c = true) → (∀ c ∈ d2, isDigitChar c = true) →
      d1 ++ '_' :: '_' :: X = d2 ++ '_' :: '_' :: Y → d1 = d2 := by
  intro d1
  induction d1 with
  | nil =>
    intro d2 X Y _ h2 he
    cases d2 with
    | nil => rfl
    | cons c d2t =>
      exfalso
      rw [List.nil_append, List.cons_append] at he
      injection he with hh _
      have hd := h2 c (List.mem_cons_self _ _)
      rw [← hh, underscore_not_digit] at hd
      exact absurd hd (by simp)
  | cons c d1t ih =>
    intro d2 X Y h1 h2 he
    cases d2 with
    | nil =>
      exfalso
      rw [List.nil_append, List.cons_append] at he
      injection he with hh _
      have hd := h1 c (List.mem_cons_self _ _)
      rw [hh, underscore_not_digit] at hd
      exact absurd hd (by simp)
    | cons b d2t =>
      rw [List.cons_append, List.cons_append] at he
      injection he with hhead htail
      subst hhead
      rw [ih d2t X Y (fun u hu => h1 u (List.mem_cons_of_mem _ hu))
        (fun u hu => h2 u (List.mem_cons_of_mem _ hu)) htail]

/-- No occurrence of the placeholder `phStr tag i` starts strictly inside a
tag-free literal segment followed by a placeholder-led (or empty) tail. -/
theorem ph_no_prefix_in_lit {tag a tail : List Char} {i : Nat}
    (htag : TagOK tag) (hocc : occurs tag a = false)
    (htail : tail = [] ∨ ∃ (j : Nat) (r : List Char), tail = phStr tag j ++ r) :
    ∀ k, k < a.length →
      ¬ (phStr tag i).isPrefixOf ((a ++ tail).drop k) = true := by
  intro k hk hpre
  rw [List.isPrefixOf_iff_prefix] at hpre
  obtain ⟨t, ht⟩ := hpre
  have hfull : a ++ tail = (a ++ tail).take k ++ (phStr tag i ++ t) := by
    rw [ht, List.take_append_drop]
  have hform : a ++ tail =
      ((a ++ tail).take k ++ ['_', '_']) ++
        (tag ++ (natDigits i ++ ('_' :: '_' :: t))) := by
    conv_lhs => rw [hfull]
    rw [phStr]
    simp only [List.append_assoc, List.cons_append, List.nil_append]
  have hpos := tag_occurrence_position htag hocc htail hform
  have hklen : k ≤ (a ++ tail).length := by
    simp only [List.length_append]
    omega
  simp only [List.length_append, List.length_take, List.length_cons,
    List.length_nil] at hpos
  omega

/-- `l.drop n` starts with `l.getD n d` when `n` is in range. -/
theorem drop_eq_getD_cons {l : List Char} {n : Nat} (h : n < l.length)
    (d : Char) : l.drop n = l.getD n d :: l.drop (n + 1) := by
  rw [List.drop_eq_getElem_cons h]
  congr 1
  rw [List.getD_eq_getElem?_getD, List.getElem?_eq_getElem h]
  rfl

/-- No occurrence of `phStr tag i` starts strictly inside a different
placeholder `phStr tag j` (when the placeholder is followed by a tag-free
literal and a placeholder-led or empty tail). -/
theorem ph_no_prefix_in_ph {tag l tail : List Char} {i j : Nat}
    (htag : TagOK tag) (hij : i ≠ j) (hocc : occurs tag l = false)
    (htail : tail = [] ∨ ∃ (j2 : Nat) (r : List Char), tail = phStr tag j2 ++ r) :
    ∀ k, k < (phStr tag j).length →
      ¬ (phStr tag i).isPrefixOf ((phStr tag j ++ (l ++ tail)).drop k) = true := by
  intro k hk hpre
  rw [List.isPrefixOf_iff_prefix] at hpre
  obtain ⟨t, ht⟩ := hpre
  obtain ⟨htne, hchars⟩ := htag
  have htlen : 0 < tag.length := List.length_pos.mpr htne
  match k, hk with
  | 0, _ =>
    rw [List.drop_zero] at ht
    rw [phStr, phStr, List.cons_append, List.cons_append,
      List.cons_append, List.cons_append] at ht
    injection ht with h1 ht
    injection ht with h2 ht
    simp only [List.append_assoc, List.cons_append, List.nil_append] at ht
    have hds := List.append_cancel_left ht
    have hdd := digits_underscore_eq (natDigits i) (natDigits j) t (l ++ tail)
      (natDigits_all_digit i) (natDigits_all_digit j) hds
    exact hij (natDigits_inj hdd)
  | 1, _ =>
    obtain ⟨c, tag2, rfl⟩ : ∃ c tag2, tag = c :: tag2 := by
      cases tag with
      | nil => exact absurd rfl htne
      | cons c tag2 => exact ⟨c, tag2, rfl⟩
    simp only [phStr, List.cons_append, List.drop_succ_cons,
      List.drop_zero] at ht
    injection ht with h1 ht
    injection ht with h2 ht
    exact absurd h2.symm (hchars c (List.mem_cons_self _ _)).1
  | (m + 2), hkm =>
    have hk2 : m + 2 < (phStr tag j).length := hkm
    rw [phStr_length] at hk2
    conv at ht => rhs; rw [phStr]
    rw [List.cons_append, List.cons_append, List.drop_succ_cons,
      List.drop_succ_cons, List.drop_append_eq_append_drop] at ht
    have hmlen : m < (tag ++ natDigits j ++ ['_', '_']).length := by
      simp only [List.length_append, List.length_cons, List.length_nil]
      omega
    rw [show m - (tag ++ natDigits j ++ ['_', '_']).length = 0 by
        simp only [List.length_append, List.length_cons, List.length_nil]
        omega,
      List.drop_zero] at ht
    rw [drop_eq_getD_cons hmlen ' '] at ht
    rw [phStr] at ht
    simp only [List.cons_append] at ht
    injection ht with h1 ht
    -- the character at offset `m` inside the placeholder body is an
    -- underscore, which forces `m` past the tag and the digit block
    have hLb : (tag ++ natDigits j).length ≤ m := by
      by_contra hcon
      push_neg at hcon
      rw [List.getD_append _ _ _ _ hcon] at h1
      have hmem := getD_mem_of_lt hcon ' '
      rw [← h1] at hmem
      rcases List.mem_append.mp hmem with hh | hh
      · exact (hchars _ hh).1 rfl
      · have hd := natDigits_all_digit j _ hh
        rw [underscore_not_digit] at hd
        exact absurd hd (by simp)
    have hm2 : m = (tag ++ natDigits j).length ∨
        m = (tag ++ natDigits j).length + 1 := by
      have e1 : (tag ++ natDigits j ++ ['_', '_']).length
          = (tag ++ natDigits j).length + 2 := by
        simp only [List.length_append, List.length_cons, List.length_nil]
      omega
    rcases hm2 with hmeq | hmeq
    · have hdrop : (tag ++ natDigits j ++ ['_', '_']).drop (m + 1) = ['_'] := by
        rw [List.drop_append_eq_append_drop, hmeq,
          List.drop_eq_nil_of_le (by omega),
          show (tag ++ natDigits j).length + 1 - (tag ++ natDigits j).length = 1
            by omega]
        rfl
      rw [hdrop] at ht
      simp only [List.cons_append, List.nil_append] at ht
      injection ht with h2 ht
      have hform : l ++ tail =
          [] ++ (tag ++ (natDigits i ++ ('_' :: '_' :: t))) := by
        rw [List.nil_append, ← ht]
        simp only [List.append_assoc, List.cons_append, List.nil_append]
      have hpos := tag_occurrence_position ⟨htne, hchars⟩ hocc htail hform
      simp only [List.length_nil] at hpos
      omega
    · have hdrop : (tag ++ natDigits j ++ ['_', '_']).drop (m + 1) = [] := by
        apply List.drop_eq_nil_of_le
        have e1 : (tag ++ natDigits j ++ ['_', '_']).length
            = (tag ++ natDigits j).length + 2 := by
          simp only [List.length_append, List.length_cons, List.length_nil]
        omega
      rw [hdrop, List.nil_append] at ht
      have hform : l ++ tail =
          ['_'] ++ (tag ++ (natDigits i ++ ('_' :: '_' :: t))) := by
        rw [← ht]
        simp only [List.append_assoc, List.cons_append, List.nil_append]
      have hpos := tag_occurrence_position ⟨htne, hchars⟩ hocc htail hform
      simp only [List.length_cons, List.length_nil] at hpos
      omega

/-- A protected string: a leading literal, then alternating
placeholder/literal groups. -/
def flattenP (tag : List Char) (a : List Char)
    (ps : List (Nat × List Char)) : List Char :=
  a ++ (ps.map (fun q => phStr tag q.1 ++ q.2)).flatten

theorem occurs_nil_pat (s : List Char) : occurs [] s = true := by
  cases s with
  | nil => rfl
  | cons c rest =>
    rw [occurs]
    simp [List.isPrefixOf_iff_prefix]

/-- `tag` is no prefix of `a ++ (rp ++ l2)` when it does not occur in `a`
and `rp` is non-empty and shares no character with `tag`. -/
theorem tag_not_prefix_mixed {tag rp l2 : List Char} (hrp : rp ≠ [])
    (hsep : ∀ c ∈ rp, c ∉ tag) (a : List Char) (hocc : occurs tag a = false) :
    tag.isPrefixOf (a ++ (rp ++ l2)) = false := by
  by_contra hcon
  rw [Bool.not_eq_false, List.isPrefixOf_iff_prefix] at hcon
  obtain ⟨t, ht⟩ := hcon
  by_cases hlen : tag.length ≤ a.length
  · have ha : a = tag ++ (t.take (a.length - tag.length)) := by
      have h1 : a = (tag ++ t).take a.length := by
        rw [ht, List.take_left]
      rw [List.take_append_eq_append_take,
        List.take_of_length_le hlen] at h1
      exact h1
    have : occurs tag a = true := by
      rw [occurs_iff]
      exact ⟨[], t.take (a.length - tag.length), by simpa using ha⟩
    rw [this] at hocc
    exact absurd hocc (by simp)
  · push_neg at hlen
    have h1 : (tag ++ t).getD a.length ' ' = tag.getD a.length ' ' :=
      List.getD_append _ _ _ _ hlen
    have h2 : (a ++ (rp ++ l2)).getD a.length ' ' = rp.getD 0 ' ' := by
      rw [List.getD_append_right _ _ _ _ (Nat.le_refl _), Nat.sub_self]
      exact List.getD_append _ _ _ _ (List.length_pos.mpr hrp)
    rw [← ht, h1] at h2
    have hmem1 := getD_mem_of_lt hlen ' '
    have hmem2 := getD_mem_of_lt (List.length_pos.mpr hrp) ' '
    rw [h2] at hmem1
    exact hsep _ hmem2 hmem1

/-- A character-disjoint block followed by a tag-free string is tag-free. -/
theorem occurs_sep_append {tag l2 : List Char} (htne : tag ≠ [])
    (hl2 : occurs tag l2 = false) :
    ∀ rp : List Char, (∀ c ∈ rp, c ∉ tag) → occurs tag (rp ++ l2) = false := by
  intro rp
  induction rp with
  | nil => intro _; simpa using hl2
  | cons c rp2 ih =>
    intro hsep
    rw [List.cons_append, occurs]
    rw [Bool.or_eq_false_iff]
    constructor
    · rw [Bool.eq_false_iff]
      intro hpre
      rw [List.isPrefixOf_iff_prefix] at hpre
      obtain ⟨t, ht⟩ := hpre
      obtain ⟨tc, tag2, rfl⟩ : ∃ tc tag2, tag = tc :: tag2 := by
        cases tag with
        | nil => exact absurd rfl htne
        | cons tc tag2 => exact ⟨tc, tag2, rfl⟩
      rw [List.cons_append] at ht
      injection ht with hh _
      exact hsep c (List.mem_cons_self _ _) (hh ▸ List.mem_cons_self _ _)
    · exact ih (fun u hu => hsep u (List.mem_cons_of_mem _ hu))

/-- Occurrence-freeness is preserved when splicing a character-disjoint,
non-empty block between two tag-free strings. -/
theorem occurs_append_sep {tag : List Char} (htne : tag ≠ [])
    {rp l2 : List Char} (hrp : rp ≠ []) (hsep : ∀ c ∈ rp, c ∉ tag)
    (hl2 : occurs tag l2 = false) :
    ∀ a : List Char, occurs tag a = false →
      occurs tag (a ++ (rp ++ l2)) = false := by
  intro a
  induction a with
  | nil =>
    intro _
    rw [List.nil_append]
    exact occurs_sep_append htne hl2 rp hsep
  | cons c a2 ih =>
    intro hocc
    rw [occurs] at hocc
    rw [Bool.or_eq_false_iff] at hocc
    rw [List.cons_append, occurs, Bool.or_eq_false_iff]
    constructor
    · rw [← List.cons_append]
      exact tag_not_prefix_mixed hrp hsep (c :: a2)
        (by rw [occurs, Bool.or_eq_false_iff]; exact hocc)
    · exact ih hocc.2

theorem flatten_ph_led (tag : List Char) (ps : List (Nat × List Char)) :
    (ps.map (fun q => phStr tag q.1 ++ q.2)).flatten = [] ∨
      ∃ (j : Nat) (r : List Char),
        (ps.map (fun q => phStr tag q.1 ++ q.2)).flatten = phStr tag j ++ r := by
  cases ps with
  | nil => left; rfl
  | cons q ps2 =>
    right
    exact ⟨q.1, q.2 ++ (ps2.map (fun q => phStr tag q.1 ++ q.2)).flatten,
      by simp [List.append_assoc]⟩

/-- Replacing placeholder `i` in a protected string substitutes exactly the
`i`-indexed groups and leaves everything else unchanged. -/
theorem replaceAll_flattenP {tag : List Char} (htag : TagOK tag) (i : Nat)
    (r : List Char) :
    ∀ (ps : List (Nat × List Char)) (a : List Char),
      occurs tag a = false → (∀ q ∈ ps, occurs tag q.2 = false) →
      replaceAll (flattenP tag a ps) (phStr tag i) r =
        a ++ (ps.map
          (fun q => (if q.1 = i then r else phStr tag q.1) ++ q.2)).flatten := by
  intro ps
  induction ps with
  | nil =>
    intro a hocc _
    rw [flattenP]
    simp only [List.map_nil, List.flatten_nil, List.append_nil]
    exact replaceAll_of_no_occurrence _ r (phStr_ne_nil tag i) a
      (fun k hk => by
        have := @ph_no_prefix_in_lit tag a [] i htag hocc (Or.inl rfl) k hk
        simpa using this)
  | cons q ps2 ih =>
    intro a hocc hlit
    obtain ⟨j, l⟩ := q
    have hlit2 : ∀ q2 ∈ ps2, occurs tag q2.2 = false :=
      fun q2 hq2 => hlit q2 (List.mem_cons_of_mem _ hq2)
    have hlocc : occurs tag l = false := hlit ⟨j, l⟩ (List.mem_cons_self _ _)
    have hshape : flattenP tag a ((j, l) :: ps2) =
        a ++ (phStr tag j ++ (l ++
          (ps2.map (fun q => phStr tag q.1 ++ q.2)).flatten)) := by
      rw [flattenP]
      simp [List.append_assoc]
    rw [hshape]
    have htail : phStr tag j ++ (l ++
        (ps2.map (fun q => phStr tag q.1 ++ q.2)).flatten) = [] ∨
        ∃ (j2 : Nat) (r2 : List Char),
          phStr tag j ++ (l ++ (ps2.map (fun q => phStr tag q.1 ++ q.2)).flatten)
            = phStr tag j2 ++ r2 :=
      Or.inr ⟨j, _, rfl⟩
    rw [replaceAll_append_no_pref _ r (phStr_ne_nil tag i) a _
      (fun k hk => ph_no_prefix_in_lit htag hocc htail k hk)]
    by_cases hji : j = i
    · subst hji
      rw [replaceAll_fire _ r _ (phStr_ne_nil tag j)]
      have hrec := ih l hlocc hlit2
      rw [flattenP] at hrec
      rw [hrec]
      simp [List.append_assoc]
    · rw [replaceAll_append_no_pref _ r (phStr_ne_nil tag i) (phStr tag j) _
        (fun k hk => ph_no_prefix_in_ph htag (fun hh => hji hh.symm) hlocc
          (flatten_ph_led tag ps2) k hk)]
      have hrec := ih l hlocc hlit2
      rw [flattenP] at hrec
      rw [hrec]
      simp only [List.map_cons, List.flatten_cons, if_neg hji]
      simp [List.append_assoc]

/-- The restore loop of `restoreCurrency` / `restoreLaughter`:
`for i, replacement := range replacements { text = ReplaceAll(text, placeholder(i), replacement) }`,
generalised to start at index `k`. -/
def restoreAux (tag : List Char) : List Char → Nat → List (List Char) → List Char
  | s, _, [] => s
  | s, k, rep :: reps => restoreAux tag (replaceAll s (phStr tag k) rep) (k + 1) reps

/-- Replacement strings that cannot interfere with placeholders: non-empty
and sharing no character with the tag. -/
def RepOK (tag : List Char) (rp : List Char) : Prop :=
  rp ≠ [] ∧ ∀ c ∈ rp, c ∉ tag

/-- Running the restore loop over a protected string substitutes each
stored replacement for its placeholder, in positional order, and leaves all
other text unchanged. -/
theorem restoreAux_flattenP {tag : List Char} (htag : TagOK tag) :
    ∀ (reps : List (List Char)) (ps : List (Nat × List Char))
      (a : List Char) (k : Nat),
      occurs tag a = false → (∀ q ∈ ps, occurs tag q.2 = false) →
      (∀ rp ∈ reps, RepOK tag rp) →
      ps.map Prod.fst = List.range' k reps.length →
      restoreAux tag (flattenP tag a ps) k reps =
        a ++ (List.zipWith (fun rp q => rp ++ q.2) reps ps).flatten := by
  intro reps
  induction reps with
  | nil =>
    intro ps a k hocc _ _ hidx
    have hps : ps = [] := by
      simp only [List.length_nil, List.range'_zero, List.map_eq_nil_iff] at hidx
      exact hidx
    subst hps
    rw [restoreAux, flattenP]
    simp
  | cons rp reps2 ih =>
    intro ps a k hocc hlit hrep hidx
    match ps, hidx with
    | (j, l) :: ps2, hidx =>
      rw [List.length_cons, List.range'_succ, List.map_cons] at hidx
      injection hidx with hj hidx2
      subst k
      have hlocc : occurs tag l = false := hlit _ (List.mem_cons_self _ _)
      have hlit2 : ∀ q ∈ ps2, occurs tag q.2 = false :=
        fun q hq => hlit q (List.mem_cons_of_mem _ hq)
      have hrep1 : RepOK tag rp := hrep rp (List.mem_cons_self _ _)
      have hrep2 : ∀ u ∈ reps2, RepOK tag u :=
        fun u hu => hrep u (List.mem_cons_of_mem _ hu)
      rw [restoreAux]
      rw [replaceAll_flattenP htag j rp ((j, l) :: ps2) a hocc hlit]
      have hsub : (((j, l) :: ps2).map
          (fun q => (if q.1 = j then rp else phStr tag q.1) ++ q.2)) =
          (rp ++ l) :: ps2.map (fun q => phStr tag q.1 ++ q.2) := by
        rw [List.map_cons]
        simp only [if_pos rfl]
        congr 1
        apply List.map_congr_left
        intro q hq
        have hqin : q.1 ∈ List.range' (j + 1) reps2.length := by
          rw [← hidx2]
          exact List.mem_map_of_mem Prod.fst hq
        rw [List.mem_range'_1] at hqin
        rw [if_neg (by omega)]
      rw [hsub]
      have hshape : a ++ ((rp ++ l) :: ps2.map
          (fun q => phStr tag q.1 ++ q.2)).flatten =
          flattenP tag (a ++ (rp ++ l)) ps2 := by
        rw [flattenP]
        simp [List.append_assoc]
      rw [hshape]
      rw [ih ps2 (a ++ (rp ++ l)) (j + 1)
        (occurs_append_sep htag.1 hrep1.1 hrep1.2 hlocc a hocc)
        hlit2 hrep2 hidx2]
      simp [List.append_assoc]

/-! ### Currency protection (`protectCurrency` / `restoreCurrency`)

The Go code matches `(\d[\d,.]*\s*)(만\s*원|천\s*원|억\s*원|조\s*원|원)` (resp.
the yen pattern) with RE2 leftmost-first semantics.  Because the number
class, the whitespace class and the unit heads are pairwise disjoint, the
greedy scan below realises exactly the regex's match choice. -/

/-- RE2 `\s`: the ASCII whitespace class `[\t\n\f\r ]`. -/
def isRe2Space (c : Char) : Bool :=
  c == ' ' || c == '\t' || c == '\n' || c == Char.ofNat 12 || c == '\r'

/-- Characters of RE2 `[\d,.]` — the tail class of the number group. -/
def isNumTail (c : Char) : Bool := isDigitChar c || c == ',' || c == '.'

/-- Length of the longest prefix of `s` whose characters satisfy `pr`
(greedy scan of a character class). -/
def countWhile (pr : Char → Bool) : List Char → Nat
  | [] => 0
  | c :: rest => if pr c then 1 + countWhile pr rest else 0

/-- Match one unit alternative `u \s* bare` at the front of `s`; returns
the matched length. -/
def matchUnitPair (u bare : Char) (s : List Char) : Option Nat :=
  match s with
  | [] => none
  | c :: rest =>
    if c = u then
      let k := countWhile isRe2Space rest
      match rest.drop k with
      | d :: _ => if d = bare then some (1 + k + 1) else none
      | [] => none
    else none

/-- Match the unit alternation at the front of `s`, trying the compound
alternatives in regex order and the bare unit last. -/
def matchUnit (units : List Char) (bare : Char) (s : List Char) : Option Nat :=
  match units with
  | [] =>
    match s with
    | c :: _ => if c = bare then some 1 else none
    | [] => none
  | u :: us =>
    match matchUnitPair u bare s with
    | some n => some n
    | none => matchUnit us bare s

/-- Match the currency pattern `(\d[\d,.]*\s*)(units)` at the front of
`s`; returns the lengths of group 1 and group 2. -/
def matchCurrencyAt (units : List Char) (bare : Char) (s : List Char) :
    Option (Nat × Nat) :=
  match s with
  | [] => none
  | c :: rest =>
    if isDigitChar c then
      let a := countWhile isNumTail rest
      let b := countWhile isRe2Space (rest.drop a)
      match matchUnit units bare (rest.drop (a + b)) with
      | some u => some (1 + a + b, u)
      | none => none
    else none

theorem matchCurrencyAt_pos {units : List Char} {bare : Char} {s : List Char}
    {g1 g2 : Nat} (h : matchCurrencyAt units bare s = some (g1, g2)) :
    1 ≤ g1 := by
  match s with
  | [] => rw [matchCurrencyAt] at h; exact absurd h (by simp)
  | c :: rest =>
    simp only [matchCurrencyAt] at h
    split_ifs at h with hd
    · split at h
      · simp only [Option.some.injEq, Prod.mk.injEq] at h
        omega
      · exact absurd h (by simp)

/-- `unicode.IsSpace` (Go `strings.TrimSpace` trimming set). -/
def goIsSpace (c : Char) : Bool :=
  let n := c.toNat
  n == 9 || n == 10 || n == 11 || n == 12 || n == 13 || n == 32 ||
  n == 0x85 || n == 0xA0 || n == 0x1680 || inRange 0x2000 0x200A n ||
  n == 0x2028 || n == 0x2029 || n == 0x202F || n == 0x205F || n == 0x3000

/-- Go `strings.TrimSpace`. -/
def trimSpace (s : List Char) : List Char :=
  ((s.dropWhile goIsSpace).reverse.dropWhile goIsSpace).reverse

/-- The currency unit map for Korean-to-Japanese (`wonToJapanese`). -/
def wonToJapanese : List (List Char × List Char) :=
  [("만원".toList, "万ウォン".toList), ("천원".toList, "千ウォン".toList),
   ("억원".toList, "億ウォン".toList), ("조원".toList, "兆ウォン".toList),
   ("원".toList, "ウォン".toList)]

/-- The currency unit map for Japanese-to-Korean (`yenToKorean`). -/
def yenToKorean : List (List Char × List Char) :=
  [("万円".toList, "만엔".toList), ("千円".toList, "천엔".toList),
   ("億円".toList, "억엔".toList), ("兆円".toList, "조엔".toList),
   ("円".toList, "엔".toList)]

/-- The `CUR` placeholder tag. -/
def curTag : List Char := ['C', 'U', 'R']

/-- The `LAU` placeholder tag. -/
def lauTag : List Char := ['L', 'A', 'U']

/-- The `ReplaceAllStringFunc` scan of `protectCurrency`: replaces each
match with `__CUR<k>__` (with `k` counting recorded replacements), storing
the trimmed number followed by the mapped despaced unit; a match whose
despaced unit is not in the map (whitespace other than an ASCII space
inside the unit) is kept verbatim, exactly as the callback returns `match`
when the lookup fails.  The callback re-derives the groups by re-matching
the matched text itself, which yields the original group decomposition. -/
def protectCurrencyLoop (units : List Char) (bare : Char)
    (unitMap : List (List Char × List Char)) (s : List Char) (k : Nat) :
    List Char × List (List Char) :=
  match s with
  | [] => ([], [])
  | c :: rest =>
    match hm : matchCurrencyAt units bare (c :: rest) with
    | none =>
      let o := protectCurrencyLoop units bare unitMap rest k
      (c :: o.1, o.2)
    | some (g1, g2) =>
      let number := trimSpace ((c :: rest).take g1)
      let unit := replaceAll (((c :: rest).drop g1).take g2) [' '] []
      match List.lookup unit unitMap with
      | none =>
        let o := protectCurrencyLoop units bare unitMap
          ((c :: rest).drop (g1 + g2)) k
        ((c :: rest).take (g1 + g2) ++ o.1, o.2)
      | some target =>
        let o := protectCurrencyLoop units bare unitMap
          ((c :: rest).drop (g1 + g2)) (k + 1)
        (phStr curTag k ++ o.1, (number ++ target) :: o.2)
termination_by s.length
decreasing_by
  all_goals
    first
      | (simp only [List.length_cons]; omega)
      | (have hpos := matchCurrencyAt_pos hm
         simp only [List.length_drop, List.length_cons]
         omega)

/-- `protectCurrency` from main.go. -/
def protectCurrency (text : List Char) (targetLang : String) :
    List Char × List (List Char) :=
  if targetLang = "ja" then
    protectCurrencyLoop ['만', '천', '억', '조'] '원' wonToJapanese text 0
  else if targetLang = "ko" then
    protectCurrencyLoop ['万', '千', '億', '兆'] '円' yenToKorean text 0
  else (text, [])

/-- `restoreCurrency` from main.go. -/
def restoreCurrency (text : List Char) (replacements : List (List Char)) :
    List Char :=
  restoreAux curTag text 0 replacements

/-- Spec-side statement of the C4 transformation: each regex-matched
currency expression is rewritten in place as its whitespace-trimmed number
part immediately followed by the mapped target-language unit; matches whose
despaced unit has no mapping are kept verbatim; all other text is
untouched. -/
def specCurrencyRewrite (units : List Char) (bare : Char)
    (unitMap : List (List Char × List Char)) (s : List Char) : List Char :=
  match s with
  | [] => []
  | c :: rest =>
    match hm : matchCurrencyAt units bare (c :: rest) with
    | none => c :: specCurrencyRewrite units bare unitMap rest
    | some (g1, g2) =>
      let number := trimSpace ((c :: rest).take g1)
      let unit := replaceAll (((c :: rest).drop g1).take g2) [' '] []
      match List.lookup unit unitMap with
      | none =>
        (c :: rest).take (g1 + g2) ++
          specCurrencyRewrite units bare unitMap ((c :: rest).drop (g1 + g2))
      | some target =>
        number ++ target ++
          specCurrencyRewrite units bare unitMap ((c :: rest).drop (g1 + g2))
termination_by s.length
decreasing_by
  all_goals
    first
      | (simp only [List.length_cons]; omega)
      | (have hpos := matchCurrencyAt_pos hm
         simp only [List.length_drop, List.length_cons]
         omega)

theorem protectCurrencyLoop_nil (units : List Char) (bare : Char)
    (unitMap : List (List Char × List Char)) (k : Nat) :
    protectCurrencyLoop units bare unitMap [] k = ([], []) := by
  rw [protectCurrencyLoop]

theorem protectCurrencyLoop_no_match {units : List Char} {bare : Char}
    {unitMap : List (List Char × List Char)} {c : Char} {rest : List Char}
    (hmc : matchCurrencyAt units bare (c :: rest) = none) (k : Nat) :
    protectCurrencyLoop units bare unitMap (c :: rest) k =
      (c :: (protectCurrencyLoop units bare unitMap rest k).1,
       (protectCurrencyLoop units bare unitMap rest k).2) := by
  rw [protectCurrencyLoop]
  split
  · rfl
  · next g1 g2 heq => exact absurd (hmc.symm.trans heq) (by simp)

theorem protectCurrencyLoop_match_keep {units : List Char} {bare : Char}
    {unitMap : List (List Char × List Char)} {c : Char} {rest : List Char}
    {g1 g2 : Nat}
    (hmc : matchCurrencyAt units bare (c :: rest) = some (g1, g2))
    (hlk : List.lookup (replaceAll (((c :: rest).drop g1).take g2) [' '] [])
      unitMap = none) (k : Nat) :
    protectCurrencyLoop units bare unitMap (c :: rest) k =
      ((c :: rest).take (g1 + g2) ++
        (protectCurrencyLoop units bare unitMap ((c :: rest).drop (g1 + g2)) k).1,
       (protectCurrencyLoop units bare unitMap ((c :: rest).drop (g1 + g2)) k).2) := by
  rw [protectCurrencyLoop]
  split
  · next heq => exact absurd (hmc.symm.trans heq) (by simp)
  · next u1 u2 heq =>
    have h12 := hmc.symm.trans heq
    simp only [Option.some.injEq, Prod.mk.injEq] at h12
    obtain ⟨h1, h2⟩ := h12
    subst h1
    subst h2
    simp only [hlk]

theorem protectCurrencyLoop_match_replace {units : List Char} {bare : Char}
    {unitMap : List (List Char × List Char)} {c : Char} {rest : List Char}
    {g1 g2 : Nat} {target : List Char}
    (hmc : matchCurrencyAt units bare (c :: rest) = some (g1, g2))
    (hlk : List.lookup (replaceAll (((c :: rest).drop g1).take g2) [' '] [])
      unitMap = some target) (k : Nat) :
    protectCurrencyLoop units bare unitMap (c :: rest) k =
      (phStr curTag k ++
        (protectCurrencyLoop units bare unitMap
          ((c :: rest).drop (g1 + g2)) (k + 1)).1,
       (trimSpace ((c :: rest).take g1) ++ target) ::
        (protectCurrencyLoop units bare unitMap
          ((c :: rest).drop (g1 + g2)) (k + 1)).2) := by
  rw [protectCurrencyLoop]
  split
  · next heq => exact absurd (hmc.symm.trans heq) (by simp)
  · next u1 u2 heq =>
    have h12 := hmc.symm.trans heq
    simp only [Option.some.injEq, Prod.mk.injEq] at h12
    obtain ⟨h1, h2⟩ := h12
    subst h1
    subst h2
    simp only [hlk]

theorem specCurrencyRewrite_nil (units : List Char) (bare : Char)
    (unitMap : List (List Char × List Char)) :
    specCurrencyRewrite units bare unitMap [] = [] := by
  rw [specCurrencyRewrite]

theorem specCurrencyRewrite_no_match {units : List Char} {bare : Char}
    {unitMap : List (List Char × List Char)} {c : Char} {rest : List Char}
    (hmc : matchCurrencyAt units bare (c :: rest) = none) :
    specCurrencyRewrite units bare unitMap (c :: rest) =
      c :: specCurrencyRewrite units bare unitMap rest := by
  rw [specCurrencyRewrite]
  split
  · rfl
  · next g1 g2 heq => exact absurd (hmc.symm.trans heq) (by simp)

theorem specCurrencyRewrite_match_keep {units : List Char} {bare : Char}
    {unitMap : List (List Char × List Char)} {c : Char} {rest : List Char}
    {g1 g2 : Nat}
    (hmc : matchCurrencyAt units bare (c :: rest) = some (g1, g2))
    (hlk : List.lookup (replaceAll (((c :: rest).drop g1).take g2) [' '] [])
      unitMap = none) :
    specCurrencyRewrite units bare unitMap (c :: rest) =
      (c :: rest).take (g1 + g2) ++
        specCurrencyRewrite units bare unitMap ((c :: rest).drop (g1 + g2)) := by
  rw [specCurrencyRewrite]
  split
  · next heq => exact absurd (hmc.symm.trans heq) (by simp)
  · next u1 u2 heq =>
    have h12 := hmc.symm.trans heq
    simp only [Option.some.injEq, Prod.mk.injEq] at h12
    obtain ⟨h1, h2⟩ := h12
    subst h1
    subst h2
    simp only [hlk]

theorem specCurrencyRewrite_match_replace {units : List Char} {bare : Char}
    {unitMap : List (List Char × List Char)} {c : Char} {rest : List Char}
    {g1 g2 : Nat} {target : List Char}
    (hmc : matchCurrencyAt units bare (c :: rest) = some (g1, g2))
    (hlk : List.lookup (replaceAll (((c :: rest).drop g1).take g2) [' '] [])
      unitMap = some target) :
    specCurrencyRewrite units bare unitMap (c :: rest) =
      trimSpace ((c :: rest).take g1) ++ target ++
        specCurrencyRewrite units bare unitMap ((c :: rest).drop (g1 + g2)) := by
  rw [specCurrencyRewrite]
  split
  · next heq => exact absurd (hmc.symm.trans heq) (by simp)
  · next u1 u2 heq =>
    have h12 := hmc.symm.trans heq
    simp only [Option.some.injEq, Prod.mk.injEq] at h12
    obtain ⟨h1, h2⟩ := h12
    subst h1
    subst h2
    simp only [hlk]

theorem countWhile_take_sat (pr : Char → Bool) :
    ∀ s : List Char, ∀ x ∈ s.take (countWhile pr s), pr x = true := by
  intro s
  induction s with
  | nil => intro x hx; simp at hx
  | cons c rest ih =>
    rw [countWhile]
    split
    · next hc =>
      intro x hx
      rw [Nat.add_comm, List.take_succ_cons] at hx
      rcases List.mem_cons.mp hx with h1 | h1
      · subst h1; exact hc
      · exact ih x h1
    · intro x hx
      simp at hx

theorem mem_trimSpace_sub {s : List Char} {x : Char} (hx : x ∈ trimSpace s) :
    x ∈ s := by
  rw [trimSpace] at hx
  rw [List.mem_reverse] at hx
  have h1 := List.dropWhile_sublist (l := (s.dropWhile goIsSpace).reverse)
    (p := goIsSpace)
  have h2 := h1.mem hx
  rw [List.mem_reverse] at h2
  exact (List.dropWhile_sublist (l := s) (p := goIsSpace)).mem h2

/-- Characters of the first match group: a digit, then `[\d,.]`, then
RE2 whitespace. -/
theorem matchCurrencyAt_group1_chars {units : List Char} {bare : Char}
    {c : Char} {rest : List Char} {g1 g2 : Nat}
    (h : matchCurrencyAt units bare (c :: rest) = some (g1, g2)) :
    ∀ x ∈ (c :: rest).take g1,
      (isDigitChar x || isNumTail x || isRe2Space x) = true := by
  simp only [matchCurrencyAt] at h
  split_ifs at h with hd
  · split at h
    · next u hu =>
      simp only [Option.some.injEq, Prod.mk.injEq] at h
      obtain ⟨h1, _⟩ := h
      subst h1
      intro x hx
      rw [show 1 + countWhile isNumTail rest +
          countWhile isRe2Space (rest.drop (countWhile isNumTail rest)) =
          (countWhile isNumTail rest +
            countWhile isRe2Space (rest.drop (countWhile isNumTail rest))) + 1
          by omega] at hx
      rw [List.take_succ_cons] at hx
      rcases List.mem_cons.mp hx with h1 | h1
      · subst h1
        simp [hd]
      · rw [List.take_add] at h1
        rcases List.mem_append.mp h1 with h2 | h2
        · have := countWhile_take_sat isNumTail rest x h2
          simp [this]
        · have := countWhile_take_sat isRe2Space
            (rest.drop (countWhile isNumTail rest)) x h2
          simp [this]
    · exact absurd h (by simp)

theorem curTag_not_group1_char {x : Char}
    (hx : (isDigitChar x || isNumTail x || isRe2Space x) = true) :
    x ∉ curTag := by
  intro hmem
  have : ∀ y ∈ curTag, (isDigitChar y || isNumTail y || isRe2Space y) = false := by
    decide
  rw [this x hmem] at hx
  exact absurd hx (by simp)

theorem lookup_mem {α β : Type} [BEq α] [LawfulBEq α] {a : α} {b : β} :
    ∀ {l : List (α × β)}, List.lookup a l = some b → (a, b) ∈ l := by
  intro l
  induction l with
  | nil => intro h; exact absurd h (by simp [List.lookup])
  | cons q l2 ih =>
    intro h
    obtain ⟨qa, qb⟩ := q
    rw [List.lookup] at h
    split at h
    · next he =>
      injection h with h
      subst h
      have ha : a = qa := by
        have hb : (a == qa) = true := he
        exact beq_iff_eq.mp hb
      rw [ha]
      exact List.mem_cons_self _ _
    · exact List.mem_cons_of_mem _ (ih h)

/-- Structure of the `protectCurrency` scan output: a protected string in
placeholder-group form whose literals are pieces of the input, whose
placeholder indices are consecutive from `k`, whose stored replacements are
placeholder-safe, and whose substitution equals the spec-side rewrite. -/
theorem protectCurrencyLoop_structure (units : List Char) (bare : Char)
    (unitMap : List (List Char × List Char))
    (hmap : ∀ q ∈ unitMap, q.2 ≠ [] ∧ ∀ x ∈ q.2, x ∉ curTag) :
    ∀ (n : Nat) (s : List Char), s.length ≤ n → ∀ k : Nat,
      ∃ (a : List Char) (ps : List (Nat × List Char)),
        (protectCurrencyLoop units bare unitMap s k).1 = flattenP curTag a ps ∧
        a <+: s ∧
        (∀ q ∈ ps, q.2 <:+: s) ∧
        ps.map Prod.fst =
          List.range' k (protectCurrencyLoop units bare unitMap s k).2.length ∧
        (∀ rp ∈ (protectCurrencyLoop units bare unitMap s k).2,
          RepOK curTag rp) ∧
        a ++ (List.zipWith (fun rp q => rp ++ q.2)
            (protectCurrencyLoop units bare unitMap s k).2 ps).flatten =
          specCurrencyRewrite units bare unitMap s := by
  intro n
  induction n with
  | zero =>
    intro s hlen k
    have hs : s = [] := List.length_eq_zero.mp (Nat.le_zero.mp hlen)
    subst hs
    refine ⟨[], [], ?_, List.nil_prefix, ?_, ?_, ?_, ?_⟩
    · rw [protectCurrencyLoop_nil, flattenP]; rfl
    · intro q hq; exact absurd hq (List.not_mem_nil q)
    · rw [protectCurrencyLoop_nil]; rfl
    · rw [protectCurrencyLoop_nil]; intro rp hrp; exact absurd hrp (List.not_mem_nil rp)
    · rw [protectCurrencyLoop_nil, specCurrencyRewrite_nil]; rfl
  | succ n ih =>
    intro s hlen k
    match s with
    | [] =>
      refine ⟨[], [], ?_, List.nil_prefix, ?_, ?_, ?_, ?_⟩
      · rw [protectCurrencyLoop_nil, flattenP]; rfl
      · intro q hq; exact absurd hq (List.not_mem_nil q)
      · rw [protectCurrencyLoop_nil]; rfl
      · rw [protectCurrencyLoop_nil]; intro rp hrp; exact absurd hrp (List.not_mem_nil rp)
      · rw [protectCurrencyLoop_nil, specCurrencyRewrite_nil]; rfl
    | c :: rest =>
      simp only [List.length_cons] at hlen
      rcases hmc : matchCurrencyAt units bare (c :: rest) with _ | ⟨g1, g2⟩
      · obtain ⟨a, ps, h1, h2, h3, h4, h5, h6⟩ := ih rest (by omega) k
        refine ⟨c :: a, ps, ?_, ?_, ?_, ?_, ?_, ?_⟩
        · rw [protectCurrencyLoop_no_match hmc k]
          rw [flattenP] at h1 ⊢
          simp only [List.cons_append, h1]
        · exact List.cons_prefix_cons.mpr ⟨rfl, h2⟩
        · intro q hq
          exact (h3 q hq).trans (List.suffix_cons c rest).isInfix
        · rw [protectCurrencyLoop_no_match hmc k]
          exact h4
        · rw [protectCurrencyLoop_no_match hmc k]
          exact h5
        · rw [protectCurrencyLoop_no_match hmc k,
            specCurrencyRewrite_no_match hmc]
          simp only [List.cons_append, h6]
      · have hg1 : 1 ≤ g1 := matchCurrencyAt_pos hmc
        rcases hlk : List.lookup
            (replaceAll (((c :: rest).drop g1).take g2) [' '] []) unitMap
          with _ | target
        · -- unmapped unit: the match is kept verbatim
          obtain ⟨a, ps, h1, h2, h3, h4, h5, h6⟩ :=
            ih ((c :: rest).drop (g1 + g2))
              (by simp only [List.length_drop, List.length_cons]; omega) k
          refine ⟨(c :: rest).take (g1 + g2) ++ a, ps, ?_, ?_, ?_, ?_, ?_, ?_⟩
          · rw [protectCurrencyLoop_match_keep hmc hlk k]
            rw [flattenP] at h1 ⊢
            simp only [List.append_assoc, h1]
          · obtain ⟨t, ht⟩ := h2
            exact ⟨t, by rw [List.append_assoc, ht, List.take_append_drop]⟩
          · intro q hq
            exact (h3 q hq).trans (List.drop_suffix _ _).isInfix
          · rw [protectCurrencyLoop_match_keep hmc hlk k]
            exact h4
          · rw [protectCurrencyLoop_match_keep hmc hlk k]
            exact h5
          · rw [protectCurrencyLoop_match_keep hmc hlk k,
              specCurrencyRewrite_match_keep hmc hlk]
            simp only [List.append_assoc, h6]
        · -- mapped unit: placeholder substitution
          obtain ⟨a, ps, h1, h2, h3, h4, h5, h6⟩ :=
            ih ((c :: rest).drop (g1 + g2))
              (by simp only [List.length_drop, List.length_cons]; omega) (k + 1)
          have htmem := lookup_mem hlk
          have htprop := hmap _ htmem
          refine ⟨[], (k, a) :: ps, ?_, List.nil_prefix, ?_, ?_, ?_, ?_⟩
          · rw [protectCurrencyLoop_match_replace hmc hlk k]
            rw [flattenP] at h1 ⊢
            simp only [List.map_cons, List.flatten_cons, List.nil_append,
              List.append_assoc, h1]
          · intro q hq
            rcases List.mem_cons.mp hq with h7 | h7
            · subst h7
              exact (List.IsPrefix.isInfix h2).trans
                (List.drop_suffix _ _).isInfix
            · exact (h3 q h7).trans (List.drop_suffix _ _).isInfix
          · rw [protectCurrencyLoop_match_replace hmc hlk k]
            simp only [List.map_cons, List.length_cons, List.range'_succ, h4]
          · rw [protectCurrencyLoop_match_replace hmc hlk k]
            intro rp hrp
            rcases List.mem_cons.mp hrp with h7 | h7
            · subst h7
              constructor
              · intro hne
                exact htprop.1 (List.append_eq_nil.mp hne).2
              · intro x hx
                rcases List.mem_append.mp hx with h8 | h8
                · exact curTag_not_group1_char
                    (matchCurrencyAt_group1_chars hmc x (mem_trimSpace_sub h8))
                · exact htprop.2 x h8
            · exact h5 rp h7
          · rw [protectCurrencyLoop_match_replace hmc hlk k,
              specCurrencyRewrite_match_replace hmc hlk]
            simp only [List.zipWith_cons_cons, List.flatten_cons,
              List.nil_append, List.append_assoc, h6]

theorem protectCurrencyLoop_cons_eq (units : List Char) (bare : Char)
    (unitMap : List (List Char × List Char)) (c : Char) (rest : List Char)
    (k : Nat) :
    protectCurrencyLoop units bare unitMap (c :: rest) k =
      match matchCurrencyAt units bare (c :: rest) with
      | none =>
        (c :: (protectCurrencyLoop units bare unitMap rest k).1,
         (protectCurrencyLoop units bare unitMap rest k).2)
      | some (g1, g2) =>
        match List.lookup (replaceAll (((c :: rest).drop g1).take g2) [' '] [])
            unitMap with
        | none =>
          ((c :: rest).take (g1 + g2) ++
            (protectCurrencyLoop units bare unitMap
              ((c :: rest).drop (g1 + g2)) k).1,
           (protectCurrencyLoop units bare unitMap
              ((c :: rest).drop (g1 + g2)) k).2)
        | some target =>
          (phStr curTag k ++
            (protectCurrencyLoop units bare unitMap
              ((c :: rest).drop (g1 + g2)) (k + 1)).1,
           (trimSpace ((c :: rest).take g1) ++ target) ::
            (protectCurrencyLoop units bare unitMap
              ((c :: rest).drop (g1 + g2)) (k + 1)).2) := by
  rcases hmc : matchCurrencyAt units bare (c :: rest) with _ | ⟨g1, g2⟩
  · rw [protectCurrencyLoop_no_match hmc k]
  · rcases hlk : List.lookup (replaceAll (((c :: rest).drop g1).take g2)
        [' '] []) unitMap with _ | target
    · rw [protectCurrencyLoop_match_keep hmc hlk k]
      simp only [hlk]
    · rw [protectCurrencyLoop_match_replace hmc hlk k]
      simp only [hlk]

theorem specCurrencyRewrite_cons_eq (units : List Char) (bare : Char)
    (unitMap : List (List Char × List Char)) (c : Char) (rest : List Char) :
    specCurrencyRewrite units bare unitMap (c :: rest) =
      match matchCurrencyAt units bare (c :: rest) with
      | none => c :: specCurrencyRewrite units bare unitMap rest
      | some (g1, g2) =>
        match List.lookup (replaceAll (((c :: rest).drop g1).take g2) [' '] [])
            unitMap with
        | none =>
          (c :: rest).take (g1 + g2) ++
            specCurrencyRewrite units bare unitMap ((c :: rest).drop (g1 + g2))
        | some target =>
          trimSpace ((c :: rest).take g1) ++ target ++
            specCurrencyRewrite units bare unitMap
              ((c :: rest).drop (g1 + g2)) := by
  rcases hmc : matchCurrencyAt units bare (c :: rest) with _ | ⟨g1, g2⟩
  · rw [specCurrencyRewrite_no_match hmc]
  · rcases hlk : List.lookup (replaceAll (((c :: rest).drop g1).take g2)
        [' '] []) unitMap with _ | target
    · rw [specCurrencyRewrite_match_keep hmc hlk]
      simp only [hlk]
    · rw [specCurrencyRewrite_match_replace hmc hlk]
      simp only [hlk]

/-- Spec-side statement of C4's claim, per target language. -/
def specCurrencyLang (text : List Char) (targetLang : String) : List Char :=
  if targetLang = "ja" then
    specCurrencyRewrite ['만', '천', '억', '조'] '원' wonToJapanese text
  else if targetLang = "ko" then
    specCurrencyRewrite ['万', '千', '億', '兆'] '円' yenToKorean text
  else text

theorem occurs_iff_infix (pat s : List Char) :
    occurs pat s = true ↔ pat <:+: s := by
  rw [occurs_iff]
  constructor
  · rintro ⟨x, y, rfl⟩
    exact ⟨x, y, rfl⟩
  · rintro ⟨x, y, hxy⟩
    exact ⟨x, y, hxy.symm⟩

theorem occurs_false_of_sub {pat s u : List Char}
    (hs : occurs pat s = false) (hu : u <:+: s) : occurs pat u = false := by
  by_contra hcon
  rw [Bool.not_eq_false, occurs_iff_infix] at hcon
  rw [← Bool.not_eq_true, occurs_iff_infix] at hs
  exact hs (hcon.trans hu)

theorem tagOK_curTag : TagOK curTag := ⟨by decide, by decide⟩

theorem tagOK_lauTag : TagOK lauTag := ⟨by decide, by decide⟩

theorem wonToJapanese_ok :
    ∀ q ∈ wonToJapanese, q.2 ≠ [] ∧ ∀ x ∈ q.2, x ∉ curTag := by decide

theorem yenToKorean_ok :
    ∀ q ∈ yenToKorean, q.2 ≠ [] ∧ ∀ x ∈ q.2, x ∉ curTag := by decide

/-- Round trip for one language direction of the currency pass. -/
theorem currency_roundtrip_loop (units : List Char) (bare : Char)
    (unitMap : List (List Char × List Char))
    (hmap : ∀ q ∈ unitMap, q.2 ≠ [] ∧ ∀ x ∈ q.2, x ∉ curTag)
    (text : List Char) (hocc : occurs curTag text = false) :
    restoreAux curTag (protectCurrencyLoop units bare unitMap text 0).1 0
      (protectCurrencyLoop units bare unitMap text 0).2
      = specCurrencyRewrite units bare unitMap text := by
  obtain ⟨a, ps, h1, h2, h3, h4, h5, h6⟩ :=
    protectCurrencyLoop_structure units bare unitMap hmap text.length text
      (Nat.le_refl _) 0
  rw [h1]
  rw [restoreAux_flattenP tagOK_curTag
    (protectCurrencyLoop units bare unitMap text 0).2 ps a 0
    (occurs_false_of_sub hocc h2.isInfix)
    (fun q hq => occurs_false_of_sub hocc (h3 q hq))
    (fun rp hrp => h5 rp hrp) h4]
  exact h6

/-- The claim C4 as stated is false: an input that already contains the
placeholder string `__CUR0__` is corrupted, because `restoreCurrency`
rewrites every occurrence of the placeholder, including the one present in
the input text. -/
theorem C4_counterexample :
    restoreCurrency (protectCurrency "__CUR0__ 3원".toList "ja").1
        (protectCurrency "__CUR0__ 3원".toList "ja").2
      ≠ specCurrencyLang "__CUR0__ 3원".toList "ja" := by
  have h1 : protectCurrency "__CUR0__ 3원".toList "ja" =
      ("__CUR0__ __CUR0__".toList, ["3ウォン".toList]) := by
    simp only [protectCurrency, if_pos rfl]
    simp [protectCurrencyLoop_nil, protectCurrencyLoop_cons_eq,
      matchCurrencyAt, countWhile, matchUnit, matchUnitPair, isDigitChar,
      isNumTail, isRe2Space, trimSpace, goIsSpace, inRange, replaceAll,
      List.lookup, wonToJapanese, phStr, natDigits, digitChar, curTag,
      List.take, List.drop, List.dropWhile, List.isPrefixOf, beq_eq_decide]
  have h2 : specCurrencyLang "__CUR0__ 3원".toList "ja" =
      "__CUR0__ 3ウォン".toList := by
    simp only [specCurrencyLang, if_pos rfl]
    simp [specCurrencyRewrite_nil, specCurrencyRewrite_cons_eq,
      matchCurrencyAt, countWhile, matchUnit, matchUnitPair, isDigitChar,
      isNumTail, isRe2Space, trimSpace, goIsSpace, inRange, replaceAll,
      List.lookup, wonToJapanese, phStr, natDigits, digitChar, curTag,
      List.take, List.drop, List.dropWhile, List.isPrefixOf, beq_eq_decide]
  rw [h1, h2]
  have h3 : restoreCurrency "__CUR0__ __CUR0__".toList ["3ウォン".toList] =
      "3ウォン 3ウォン".toList := by
    rw [restoreCurrency]
    simp [restoreAux, replaceAll, phStr, natDigits, digitChar, curTag,
      List.take, List.drop, List.isPrefixOf, beq_eq_decide]
  rw [h3]
  decide

/-- C4 (amended): for input text that does not contain the substring "CUR",
restoring the protected text with the recorded replacements yields exactly
the input with each regex-matched currency expression rewritten as its
whitespace-trimmed number followed by the mapped target-language unit
(matches with unmapped units kept verbatim), by positional placeholder
index; for any other target language the text is returned unchanged with no
replacements. -/
theorem C4_protect_restore_roundtrip (text : List Char) (lang : String)
    (hocc : occurs curTag text = false) :
    restoreCurrency (protectCurrency text lang).1 (protectCurrency text lang).2
      = specCurrencyLang text lang ∧
    (lang ≠ "ja" → lang ≠ "ko" → protectCurrency text lang = (text, [])) := by
  constructor
  · by_cases hja : lang = "ja"
    · subst hja
      rw [protectCurrency, if_pos rfl, specCurrencyLang, if_pos rfl,
        restoreCurrency]
      exact currency_roundtrip_loop _ _ _ wonToJapanese_ok text hocc
    · by_cases hko : lang = "ko"
      · subst hko
        rw [protectCurrency, if_neg (by simp), if_pos rfl, specCurrencyLang,
          if_neg (by simp), if_pos rfl, restoreCurrency]
        exact currency_roundtrip_loop _ _ _ yenToKorean_ok text hocc
      · rw [protectCurrency, if_neg hja, if_neg hko, specCurrencyLang,
          if_neg hja, if_neg hko, restoreCurrency, restoreAux]
  · intro hja hko
    rw [protectCurrency, if_neg hja, if_neg hko]

/-- Witness for the amended C4 at a concrete input. -/
theorem C4_witness :
    restoreCurrency (protectCurrency "가격은 3만 원입니다".toList "ja").1
        (protectCurrency "가격은 3만 원입니다".toList "ja").2
      = specCurrencyLang "가격은 3만 원입니다".toList "ja" :=
  (C4_protect_restore_roundtrip "가격은 3만 원입니다".toList "ja" (by decide)).1

/-! ### Laughter protection (`protectLaughter` / `restoreLaughter`)

For target "ja" the Go code runs `ReplaceAllStringFunc` with
`[ㅋ]{2,}|[ㅎ]{2,}`; for target "ko" it collects `FindAllStringIndex` of
`w{3,}` and rebuilds the string, skipping runs immediately followed by a
dot (URL protection). -/

/-- The `ReplaceAllStringFunc` scan of `protectLaughter` for target "ja":
each maximal run of two or more ㅋ, or two or more ㅎ, becomes a
`__LAU<k>__` placeholder whose stored replacement is one "w" per rune of
the match. -/
def protectLaughterJaLoop (s : List Char) (k : Nat) :
    List Char × List (List Char) :=
  match s with
  | [] => ([], [])
  | c :: rest =>
    if c = 'ㅋ' ∨ c = 'ㅎ' then
      let n := 1 + countWhile (fun d => d == c) rest
      if 2 ≤ n then
        let o := protectLaughterJaLoop (rest.drop (n - 1)) (k + 1)
        (phStr lauTag k ++ o.1, List.replicate n 'w' :: o.2)
      else
        let o := protectLaughterJaLoop rest k
        (c :: o.1, o.2)
    else
      let o := protectLaughterJaLoop rest k
      (c :: o.1, o.2)
termination_by s.length
decreasing_by
  all_goals simp only [List.length_drop, List.length_cons]
  all_goals omega

/-- `japaneseLaughRegex.FindAllStringIndex text -1`: the (start, end) index
pairs of every maximal run of three or more consecutive w characters,
scanning with absolute base index `i`. -/
def findWRuns (s : List Char) (i : Nat) : List (Nat × Nat) :=
  match s with
  | [] => []
  | c :: rest =>
    if c = 'w' then
      let n := 1 + countWhile (fun d => d == 'w') rest
      if 3 ≤ n then (i, i + n) :: findWRuns (rest.drop (n - 1)) (i + n)
      else findWRuns (rest.drop (n - 1)) (i + n)
    else findWRuns rest (i + 1)
termination_by s.length
decreasing_by
  all_goals simp only [List.length_drop, List.length_cons]
  all_goals omega

/-- The rebuilding loop of `protectLaughter`'s "ko" branch: for each match
`[st, en)`, if the character at index `en` is a dot the run is copied
verbatim (`buf.WriteString(text[prev:end])`); otherwise the text before the
run is copied, a `__LAU<k>__` placeholder is written and "ㅋ" times the
byte length of the run is recorded; the remaining tail is appended at the
end. -/
def buildKo (t : List Char) :
    List (Nat × Nat) → Nat → Nat → List Char × List (List Char)
  | [], prev, _ => (t.drop prev, [])
  | (st, en) :: rs, prev, k =>
    if en < t.length ∧ t.getD en ' ' = '.' then
      let o := buildKo t rs en k
      ((t.drop prev).take (en - prev) ++ o.1, o.2)
    else
      let o := buildKo t rs en (k + 1)
      ((t.drop prev).take (st - prev) ++ phStr lauTag k ++ o.1,
        List.replicate (en - st) 'ㅋ' :: o.2)

/-- `protectLaughter` from main.go. -/
def protectLaughter (text : List Char) (targetLang : String) :
    List Char × List (List Char) :=
  if targetLang = "ja" then protectLaughterJaLoop text 0
  else if targetLang = "ko" then
    let indices := findWRuns text 0
    if indices = [] then (text, [])
    else buildKo text indices 0 0
  else (text, [])

/-- `restoreLaughter` from main.go. -/
def restoreLaughter (text : List Char) (replacements : List (List Char)) :
    List Char :=
  restoreAux lauTag text 0 replacements

/-- Maximal runs of equal characters of a string, in order. -/
def charRuns (s : List Char) : List (List Char) :=
  match s with
  | [] => []
  | c :: rest =>
    let n := countWhile (fun d => d == c) rest
    (c :: rest.take n) :: charRuns (rest.drop n)
termination_by s.length
decreasing_by
  simp only [List.length_drop, List.length_cons]
  omega

/-- First character of the next run. -/
def nextRunHead (gs : List (List Char)) : Option Char :=
  match gs with
  | [] => none
  | g :: _ => g.head?

/-- Spec-side C6, target "ja", over maximal runs: each run of two or more
ㅋ or ㅎ becomes a placeholder storing one "w" per rune. -/
def specLaughterJaRuns (runs : List (List Char)) (k : Nat) :
    List Char × List (List Char) :=
  match runs with
  | [] => ([], [])
  | g :: gs =>
    if 2 ≤ g.length ∧ (g.head? = some 'ㅋ' ∨ g.head? = some 'ㅎ') then
      let o := specLaughterJaRuns gs (k + 1)
      (phStr lauTag k ++ o.1, List.replicate g.length 'w' :: o.2)
    else
      let o := specLaughterJaRuns gs k
      (g ++ o.1, o.2)

/-- Spec-side C6/C9, target "ko", over maximal runs: each run of three or
more w that is not immediately followed by a dot becomes a placeholder
storing one "ㅋ" per character; a run followed by a dot is kept
unchanged and records nothing. -/
def specLaughterKoRuns (runs : List (List Char)) (k : Nat) :
    List Char × List (List Char) :=
  match runs with
  | [] => ([], [])
  | g :: gs =>
    if 3 ≤ g.length ∧ g.head? = some 'w' ∧ nextRunHead gs ≠ some '.' then
      let o := specLaughterKoRuns gs (k + 1)
      (phStr lauTag k ++ o.1, List.replicate g.length 'ㅋ' :: o.2)
    else
      let o := specLaughterKoRuns gs k
      (g ++ o.1, o.2)

/-- Spec-side C6 claim without the dot exception (the claim as literally
stated): every maximal run of three or more w is replaced. -/
def specLaughterKoAllRuns (runs : List (List Char)) (k : Nat) :
    List Char × List (List Char) :=
  match runs with
  | [] => ([], [])
  | g :: gs =>
    if 3 ≤ g.length ∧ g.head? = some 'w' then
      let o := specLaughterKoAllRuns gs (k + 1)
      (phStr lauTag k ++ o.1, List.replicate g.length 'ㅋ' :: o.2)
    else
      let o := specLaughterKoAllRuns gs k
      (g ++ o.1, o.2)

/-- Spec-side laughter protection per target language (with the dot
exception for "ko"). -/
def specLaughter (text : List Char) (targetLang : String) :
    List Char × List (List Char) :=
  if targetLang = "ja" then specLaughterJaRuns (charRuns text) 0
  else if targetLang = "ko" then specLaughterKoRuns (charRuns text) 0
  else (text, [])

theorem countWhile_le_length (pr : Char → Bool) :
    ∀ s : List Char, countWhile pr s ≤ s.length := by
  intro s
  induction s with
  | nil => rw [countWhile]; simp
  | cons c rest ih =>
    rw [countWhile]
    split
    · simp only [List.length_cons]
      omega
    · simp

theorem countWhile_cons_pos {pr : Char → Bool} {c : Char} {rest : List Char}
    (hc : pr c = true) :
    countWhile pr (c :: rest) = 1 + countWhile pr rest := by
  rw [countWhile, if_pos hc]

theorem countWhile_cons_neg {pr : Char → Bool} {c : Char} {rest : List Char}
    (hc : pr c = false) : countWhile pr (c :: rest) = 0 := by
  rw [countWhile, if_neg (by simp [hc])]

theorem head_eq_of_countWhile_pos {c : Char} {rest : List Char}
    (h : 1 ≤ countWhile (fun d => d == c) rest) :
    ∃ rest2, rest = c :: rest2 := by
  match rest with
  | [] => rw [countWhile] at h; omega
  | d :: rest2 =>
    rw [countWhile] at h
    split at h
    · next hd =>
      have : d = c := by simpa using hd
      exact ⟨rest2, by rw [this]⟩
    · omega

theorem charRuns_cons (c : Char) (rest : List Char) :
    charRuns (c :: rest) =
      (c :: rest.take (countWhile (fun d => d == c) rest)) ::
        charRuns (rest.drop (countWhile (fun d => d == c) rest)) := by
  rw [charRuns]

/-- Peeling one non-laughter character off the front commutes with the
run-based "ja" spec. -/
theorem specLaughterJaRuns_pass {c : Char} (rest : List Char)
    (hc : ¬(c = 'ㅋ' ∨ c = 'ㅎ')) (k : Nat) :
    specLaughterJaRuns (charRuns (c :: rest)) k =
      (c :: (specLaughterJaRuns (charRuns rest) k).1,
       (specLaughterJaRuns (charRuns rest) k).2) := by
  have hnc : ∀ X : List Char, ¬(2 ≤ (c :: X).length ∧
      ((c :: X).head? = some 'ㅋ' ∨ (c :: X).head? = some 'ㅎ')) := by
    rintro X ⟨_, h2 | h2⟩ <;>
      simp only [List.head?_cons, Option.some.injEq] at h2
    · exact hc (Or.inl h2)
    · exact hc (Or.inr h2)
  rw [charRuns_cons]
  rcases Nat.eq_zero_or_pos (countWhile (fun d => d == c) rest) with h0 | h0
  · rw [h0]
    simp only [List.take_zero, List.drop_zero]
    rw [specLaughterJaRuns]
    rw [if_neg (hnc [])]
    simp
  · obtain ⟨rest2, rfl⟩ := head_eq_of_countWhile_pos h0
    have hcw : countWhile (fun d => d == c) (c :: rest2) =
        1 + countWhile (fun d => d == c) rest2 :=
      countWhile_cons_pos (by simp)
    rw [hcw, Nat.add_comm 1 (countWhile (fun d => d == c) rest2),
      List.take_succ_cons, List.drop_succ_cons]
    rw [charRuns_cons]
    rw [specLaughterJaRuns, specLaughterJaRuns]
    rw [if_neg (hnc _), if_neg (hnc _)]
    simp

/-- The "ja" laughter scan agrees with the run-based spec. -/
theorem protectLaughterJa_eq_spec :
    ∀ (n : Nat) (s : List Char), s.length ≤ n → ∀ k : Nat,
      protectLaughterJaLoop s k = specLaughterJaRuns (charRuns s) k := by
  intro n
  induction n with
  | zero =>
    intro s hlen k
    have hs : s = [] := List.length_eq_zero.mp (Nat.le_zero.mp hlen)
    subst hs
    rw [protectLaughterJaLoop, charRuns, specLaughterJaRuns]
  | succ n ih =>
    intro s hlen k
    match s with
    | [] => rw [protectLaughterJaLoop, charRuns, specLaughterJaRuns]
    | c :: rest =>
      simp only [List.length_cons] at hlen
      rw [protectLaughterJaLoop]
      by_cases hc : c = 'ㅋ' ∨ c = 'ㅎ'
      · rw [if_pos hc]
        rcases Nat.eq_zero_or_pos (countWhile (fun d => d == c) rest)
          with h0 | h0
        · rw [if_neg (by omega)]
          simp only []
          rw [ih rest (by omega) k]
          rw [charRuns_cons, h0]
          simp only [List.take_zero, List.drop_zero]
          rw [specLaughterJaRuns]
          rw [if_neg (by rintro ⟨hlen2, _⟩; simp at hlen2)]
          simp
        · rw [if_pos (by omega)]
          simp only []
          have hle := countWhile_le_length (fun d => d == c) rest
          rw [show 1 + countWhile (fun d => d == c) rest - 1 =
            countWhile (fun d => d == c) rest by omega]
          rw [ih (rest.drop (countWhile (fun d => d == c) rest))
            (by simp only [List.length_drop]; omega) (k + 1)]
          rw [charRuns_cons]
          rw [specLaughterJaRuns]
          rw [if_pos (by
            constructor
            · simp only [List.length_cons, List.length_take]
              omega
            · rcases hc with hc | hc
              · left; rw [hc]; rfl
              · right; rw [hc]; rfl)]
          simp only [List.length_cons, List.length_take]
          rw [show min (countWhile (fun d => d == c) rest) rest.length =
            countWhile (fun d => d == c) rest by omega]
          rw [Nat.add_comm (countWhile (fun d => d == c) rest) 1]
      · rw [if_neg hc]
        simp only []
        rw [ih rest (by omega) k]
        rw [specLaughterJaRuns_pass rest hc k]

theorem getD_zero_drop (l : List Char) (m : Nat) (d : Char) :
    (l.drop m).getD 0 d = l.getD m d := by
  rcases Nat.lt_or_ge m l.length with h | h
  · rw [drop_eq_getD_cons h d]
    rfl
  · rw [List.drop_eq_nil_of_le h]
    rw [List.getD_eq_getElem?_getD, List.getD_eq_getElem?_getD]
    rw [List.getElem?_eq_none (by simp), List.getElem?_eq_none h]

theorem drop_append_self (pre u : List Char) :
    (pre ++ u).drop pre.length = u := by
  rw [List.drop_append_eq_append_drop]
  simp

/-- Every index pair produced by `findWRuns s i` starts at or after `i` and
is non-degenerate. -/
theorem findWRuns_start_ge :
    ∀ (n : Nat) (s : List Char), s.length ≤ n → ∀ i : Nat,
      ∀ q ∈ findWRuns s i, i ≤ q.1 ∧ q.1 < q.2 := by
  intro n
  induction n with
  | zero =>
    intro s hlen i q hq
    have hs : s = [] := List.length_eq_zero.mp (Nat.le_zero.mp hlen)
    subst hs
    rw [findWRuns] at hq
    exact absurd hq (List.not_mem_nil q)
  | succ n ih =>
    intro s hlen i q hq
    match s with
    | [] =>
      rw [findWRuns] at hq
      exact absurd hq (List.not_mem_nil q)
    | c :: rest =>
      simp only [List.length_cons] at hlen
      rw [findWRuns] at hq
      have hle := countWhile_le_length (fun d => d == 'w') rest
      by_cases hc : c = 'w'
      · rw [if_pos hc] at hq
        simp only [] at hq
        by_cases h3 : 3 ≤ 1 + countWhile (fun d => d == 'w') rest
        · rw [if_pos h3] at hq
          rcases List.mem_cons.mp hq with hq | hq
          · subst hq
            refine ⟨Nat.le_refl _, ?_⟩
            show i < i + (1 + countWhile (fun d => d == 'w') rest)
            omega
          · have := ih (rest.drop (1 + countWhile (fun d => d == 'w') rest - 1))
              (by simp only [List.length_drop]; omega)
              (i + (1 + countWhile (fun d => d == 'w') rest)) q hq
            omega
        · rw [if_neg h3] at hq
          have := ih (rest.drop (1 + countWhile (fun d => d == 'w') rest - 1))
            (by simp only [List.length_drop]; omega)
            (i + (1 + countWhile (fun d => d == 'w') rest)) q hq
          omega
      · rw [if_neg hc] at hq
        have := ih rest (by omega) (i + 1) q hq
        omega

/-- When every recorded run starts past `prev`, the rebuild loop first
copies the character at `prev`. -/
theorem buildKo_shift (T : List Char) :
    ∀ (runs : List (Nat × Nat)) (prev k : Nat),
      (∀ q ∈ runs, prev + 1 ≤ q.1 ∧ q.1 < q.2) → prev < T.length →
      buildKo T runs prev k =
        (T.getD prev ' ' :: (buildKo T runs (prev + 1) k).1,
         (buildKo T runs (prev + 1) k).2) := by
  intro runs prev k hruns hprev
  match runs with
  | [] =>
    rw [buildKo, buildKo]
    rw [drop_eq_getD_cons hprev ' ']
  | (st, en) :: rs =>
    have hq := hruns (st, en) (List.mem_cons_self _ _)
    rw [buildKo, buildKo]
    by_cases hdot : en < T.length ∧ T.getD en ' ' = '.'
    · rw [if_pos hdot, if_pos hdot]
      simp only []
      rw [drop_eq_getD_cons hprev ' ']
      rw [show en - prev = (en - (prev + 1)) + 1 by omega]
      rw [List.take_succ_cons]
      simp
    · rw [if_neg hdot, if_neg hdot]
      simp only []
      rw [drop_eq_getD_cons hprev ' ']
      rw [show st - prev = (st - (prev + 1)) + 1 by omega]
      rw [List.take_succ_cons]
      simp

/-- Iterated form of `buildKo_shift`: the loop copies the `m` characters
before the first recorded run verbatim. -/
theorem buildKo_shift_many (T : List Char) (runs : List (Nat × Nat)) (k : Nat) :
    ∀ (m prev : Nat), prev + m ≤ T.length →
      (∀ q ∈ runs, prev + m ≤ q.1 ∧ q.1 < q.2) →
      buildKo T runs prev k =
        ((T.drop prev).take m ++ (buildKo T runs (prev + m) k).1,
         (buildKo T runs (prev + m) k).2) := by
  intro m
  induction m with
  | zero =>
    intro prev hlen hruns
    simp
  | succ m ih =>
    intro prev hlen hruns
    have hprev : prev < T.length := by omega
    rw [buildKo_shift T runs prev k
      (fun q hq => ⟨by have := hruns q hq; omega, (hruns q hq).2⟩) hprev]
    rw [ih (prev + 1) (by omega)
      (fun q hq => ⟨by have := hruns q hq; omega, (hruns q hq).2⟩)]
    rw [show prev + (m + 1) = prev + 1 + m by omega]
    rw [drop_eq_getD_cons hprev ' ', List.take_succ_cons]
    simp

theorem nextRunHead_charRuns (u : List Char) :
    nextRunHead (charRuns u) = u.head? := by
  match u with
  | [] => rw [charRuns]; rfl
  | d :: u2 =>
    rw [charRuns_cons]
    rfl

/-- Peeling one non-w character off the front commutes with the run-based
"ko" spec. -/
theorem specLaughterKoRuns_pass {c : Char} (rest : List Char)
    (hc : ¬ c = 'w') (k : Nat) :
    specLaughterKoRuns (charRuns (c :: rest)) k =
      (c :: (specLaughterKoRuns (charRuns rest) k).1,
       (specLaughterKoRuns (charRuns rest) k).2) := by
  have hnc : ∀ (X : List Char) (gs : List (List Char)),
      ¬(3 ≤ (c :: X).length ∧ (c :: X).head? = some 'w' ∧
        nextRunHead gs ≠ some '.') := by
    rintro X gs ⟨_, h2, _⟩
    simp only [List.head?_cons, Option.some.injEq] at h2
    exact hc h2
  rw [charRuns_cons]
  rcases Nat.eq_zero_or_pos (countWhile (fun d => d == c) rest) with h0 | h0
  · rw [h0]
    simp only [List.take_zero, List.drop_zero]
    rw [specLaughterKoRuns]
    rw [if_neg (hnc [] _)]
    simp
  · obtain ⟨rest2, rfl⟩ := head_eq_of_countWhile_pos h0
    have hcw : countWhile (fun d => d == c) (c :: rest2) =
        1 + countWhile (fun d => d == c) rest2 :=
      countWhile_cons_pos (by simp)
    rw [hcw, Nat.add_comm 1 (countWhile (fun d => d == c) rest2),
      List.take_succ_cons, List.drop_succ_cons]
    rw [charRuns_cons]
    rw [specLaughterKoRuns, specLaughterKoRuns]
    rw [if_neg (hnc _ _), if_neg (hnc _ _)]
    simp

/-- The "ko" rebuild over the found w-run indices agrees with the run-based
spec (dot exception included), for text placed after an arbitrary
already-copied prefix. -/
theorem buildKo_eq_specKo :
    ∀ (N : Nat) (t : List Char), t.length ≤ N → ∀ (pre : List Char) (k : Nat),
      buildKo (pre ++ t) (findWRuns t pre.length) pre.length k =
        specLaughterKoRuns (charRuns t) k := by
  intro N
  induction N with
  | zero =>
    intro t hlen pre k
    have ht : t = [] := List.length_eq_zero.mp (Nat.le_zero.mp hlen)
    subst ht
    rw [findWRuns, buildKo, charRuns, specLaughterKoRuns]
    simp [drop_append_self]
  | succ N ih =>
    intro t hlen pre k
    match t with
    | [] =>
      rw [findWRuns, buildKo, charRuns, specLaughterKoRuns]
      simp [drop_append_self]
    | c :: rest =>
      simp only [List.length_cons] at hlen
      by_cases hc : c = 'w'
      · subst hc
        rw [findWRuns, if_pos rfl]
        simp only []
        rw [show 1 + countWhile (fun d => d == 'w') rest - 1 =
          countWhile (fun d => d == 'w') rest from by omega]
        rw [charRuns_cons]
        have hle : countWhile (fun d => d == 'w') rest ≤ rest.length :=
          countWhile_le_length _ _
        generalize hcw : countWhile (fun d => d == 'w') rest = cw at hle ⊢
        have hg : ('w' :: rest.take cw).length = 1 + cw := by
          simp only [List.length_cons, List.length_take]
          omega
        have hdrop : (pre ++ 'w' :: rest).drop pre.length = 'w' :: rest :=
          drop_append_self pre _
        have htake : ('w' :: rest).take (1 + cw) = 'w' :: rest.take cw := by
          rw [Nat.add_comm, List.take_succ_cons]
        have hTlen : (pre ++ 'w' :: rest).length =
            pre.length + (1 + rest.length) := by
          simp only [List.length_append, List.length_cons]
          omega
        have epre2 : (pre ++ ('w' :: rest.take cw)).length =
            pre.length + (1 + cw) := by
          simp only [List.length_append, List.length_cons, List.length_take]
          omega
        have eT : pre ++ 'w' :: rest =
            (pre ++ ('w' :: rest.take cw)) ++ rest.drop cw := by
          rw [List.append_assoc, List.cons_append, List.take_append_drop]
        have hruns := findWRuns_start_ge N (rest.drop cw)
          (by simp only [List.length_drop]; omega) (pre.length + (1 + cw))
        have hrlen : (rest.drop cw).length ≤ N := by
          simp only [List.length_drop]; omega
        have hgetDen : (pre ++ 'w' :: rest).getD (pre.length + (1 + cw)) ' ' =
            (rest.drop cw).getD 0 ' ' := by
          rw [List.getD_append_right _ _ _ _ (Nat.le_add_right _ _),
            Nat.add_sub_cancel_left]
          rw [show 1 + cw = cw + 1 from Nat.add_comm _ _, List.getD_cons_succ]
          rw [getD_zero_drop]
        by_cases h3 : 3 ≤ 1 + cw
        · rw [if_pos h3]
          rw [buildKo]
          rw [specLaughterKoRuns]
          cases hr : rest.drop cw with
          | nil =>
            have hcwlen : rest.length ≤ cw := by
              have := congrArg List.length hr
              simp only [List.length_drop, List.length_nil] at this
              omega
            rw [if_neg (by
              rintro ⟨hlt, _⟩
              rw [hTlen] at hlt
              omega)]
            simp only []
            rw [findWRuns, buildKo]
            rw [List.drop_eq_nil_of_le
              (show (pre ++ 'w' :: rest).length ≤ pre.length + (1 + cw) from by
                rw [hTlen]; omega)]
            rw [if_pos (by
              refine ⟨by rw [hg]; exact h3, rfl, ?_⟩
              rw [charRuns]
              intro hcon
              exact absurd hcon (by rw [nextRunHead]; simp))]
            rw [charRuns, specLaughterKoRuns]
            simp [hg, Nat.add_sub_cancel_left]
          | cons d tail =>
            rw [← hr]
            have hcwlt : cw < rest.length := by
              have := congrArg List.length hr
              simp only [List.length_drop, List.length_cons] at this
              omega
            by_cases hd : d = '.'
            · rw [if_pos (by
                refine ⟨by rw [hTlen]; omega, ?_⟩
                rw [hgetDen, hr, List.getD_cons_zero]
                exact hd)]
              simp only []
              rw [Nat.add_sub_cancel_left, hdrop, htake]
              rw [show pre.length + (1 + cw) =
                (pre ++ ('w' :: List.take cw rest)).length from epre2.symm]
              conv_lhs => rw [eT]
              rw [ih (rest.drop cw) hrlen (pre ++ ('w' :: rest.take cw)) k]
              rw [if_neg (by
                rintro ⟨_, _, hnx⟩
                exact hnx (by rw [nextRunHead_charRuns, hr, List.head?_cons, hd]))]
            · rw [if_neg (by
                rintro ⟨_, hdotc⟩
                rw [hgetDen, hr, List.getD_cons_zero] at hdotc
                exact hd hdotc)]
              simp only []
              rw [Nat.sub_self, Nat.add_sub_cancel_left, List.take_zero]
              rw [show pre.length + (1 + cw) =
                (pre ++ ('w' :: List.take cw rest)).length from epre2.symm]
              conv_lhs => rw [eT]
              rw [ih (rest.drop cw) hrlen (pre ++ ('w' :: rest.take cw)) (k + 1)]
              rw [if_pos (by
                refine ⟨by rw [hg]; exact h3, rfl, ?_⟩
                rw [nextRunHead_charRuns, hr, List.head?_cons]
                simpa using hd)]
              simp [hg]
        · rw [if_neg h3]
          rw [buildKo_shift_many (pre ++ 'w' :: rest) _ k (1 + cw) pre.length
            (by rw [hTlen]; omega) hruns]
          rw [hdrop, htake]
          rw [show pre.length + (1 + cw) =
            (pre ++ ('w' :: List.take cw rest)).length from epre2.symm]
          conv_lhs => rw [eT]
          rw [ih (rest.drop cw) hrlen (pre ++ ('w' :: rest.take cw)) k]
          rw [specLaughterKoRuns]
          rw [if_neg (by
            rintro ⟨h3x, _, _⟩
            rw [hg] at h3x
            exact h3 h3x)]
      · rw [findWRuns, if_neg hc]
        have hpre1 : pre.length < (pre ++ c :: rest).length := by
          simp
        have hstart := findWRuns_start_ge N rest (by omega) (pre.length + 1)
        rw [buildKo_shift (pre ++ c :: rest) _ pre.length k hstart hpre1]
        have hgetD : (pre ++ c :: rest).getD pre.length ' ' = c := by
          rw [List.getD_append_right _ _ _ _ (Nat.le_refl _), Nat.sub_self,
            List.getD_cons_zero]
        rw [hgetD]
        rw [show pre.length + 1 = (pre ++ [c]).length from by simp]
        rw [show pre ++ c :: rest = (pre ++ [c]) ++ rest from by simp]
        rw [ih rest (by omega) (pre ++ [c]) k]
        rw [specLaughterKoRuns_pass rest hc k]

/-- `protectLaughter` for target "ja" equals the run-based spec. -/
theorem protectLaughterJa_eq (text : List Char) :
    protectLaughter text "ja" = specLaughterJaRuns (charRuns text) 0 := by
  rw [protectLaughter, if_pos rfl]
  exact protectLaughterJa_eq_spec text.length text (Nat.le_refl _) 0

/-- `protectLaughter` for target "ko" equals the run-based spec with the
dot exception. -/
theorem protectLaughterKo_eq (text : List Char) :
    protectLaughter text "ko" = specLaughterKoRuns (charRuns text) 0 := by
  have hmain := buildKo_eq_specKo text.length text (Nat.le_refl _) [] 0
  simp only [List.nil_append, List.length_nil] at hmain
  rw [protectLaughter, if_neg (by decide), if_pos rfl]
  simp only []
  by_cases hfe : findWRuns text 0 = []
  · rw [if_pos hfe]
    rw [hfe, buildKo] at hmain
    simp only [List.drop_zero] at hmain
    exact hmain
  · rw [if_neg hfe]
    exact hmain

theorem charRuns_flatten :
    ∀ (n : Nat) (s : List Char), s.length ≤ n → (charRuns s).flatten = s := by
  intro n
  induction n with
  | zero =>
    intro s hlen
    have hs : s = [] := List.length_eq_zero.mp (Nat.le_zero.mp hlen)
    subst hs
    rw [charRuns]
    rfl
  | succ n ih =>
    intro s hlen
    match s with
    | [] => rw [charRuns]; rfl
    | c :: rest =>
      simp only [List.length_cons] at hlen
      have hle := countWhile_le_length (fun d => d == c) rest
      rw [charRuns_cons, List.flatten_cons]
      rw [ih (rest.drop (countWhile (fun d => d == c) rest))
        (by simp only [List.length_drop]; omega)]
      rw [List.cons_append, List.take_append_drop]

/-- Spec-side effect of restoring the "ja" pass output: each protected
laughter run is rewritten to its stored replacement, all other text is
unchanged. -/
def specLaughterJaRestore (runs : List (List Char)) : List Char :=
  match runs with
  | [] => []
  | g :: gs =>
    if 2 ≤ g.length ∧ (g.head? = some 'ㅋ' ∨ g.head? = some 'ㅎ') then
      List.replicate g.length 'w' ++ specLaughterJaRestore gs
    else g ++ specLaughterJaRestore gs

/-- Spec-side effect of restoring the "ko" pass output (dot exception
included). -/
def specLaughterKoRestore (runs : List (List Char)) : List Char :=
  match runs with
  | [] => []
  | g :: gs =>
    if 3 ≤ g.length ∧ g.head? = some 'w' ∧ nextRunHead gs ≠ some '.' then
      List.replicate g.length 'ㅋ' ++ specLaughterKoRestore gs
    else g ++ specLaughterKoRestore gs

/-- Spec-side effect of `restoreLaughter` after `protectLaughter`, per
target language. -/
def specLaughterRestore (text : List Char) (targetLang : String) : List Char :=
  if targetLang = "ja" then specLaughterJaRestore (charRuns text)
  else if targetLang = "ko" then specLaughterKoRestore (charRuns text)
  else text

/-- Structure of the "ja" spec output: placeholder-group form with
consecutive indices, literals taken from the input runs, and placeholder-
safe replacements whose substitution realises the restore spec. -/
theorem specLaughterJaRuns_structure :
    ∀ (runs : List (List Char)) (k : Nat),
      ∃ (a : List Char) (ps : List (Nat × List Char)),
        (specLaughterJaRuns runs k).1 = flattenP lauTag a ps ∧
        a <+: runs.flatten ∧
        (∀ q ∈ ps, q.2 <:+: runs.flatten) ∧
        ps.map Prod.fst = List.range' k (specLaughterJaRuns runs k).2.length ∧
        (∀ rp ∈ (specLaughterJaRuns runs k).2, RepOK lauTag rp) ∧
        a ++ (List.zipWith (fun rp q => rp ++ q.2)
            (specLaughterJaRuns runs k).2 ps).flatten =
          specLaughterJaRestore runs := by
  intro runs
  induction runs with
  | nil =>
    intro k
    refine ⟨[], [], ?_, List.nil_prefix, ?_, ?_, ?_, ?_⟩
    · rw [specLaughterJaRuns, flattenP]; rfl
    · intro q hq; exact absurd hq (List.not_mem_nil q)
    · rw [specLaughterJaRuns]; rfl
    · rw [specLaughterJaRuns]
      intro rp hrp
      exact absurd hrp (List.not_mem_nil rp)
    · rw [specLaughterJaRuns, specLaughterJaRestore]; rfl
  | cons g gs ihg =>
    intro k
    by_cases hcond : 2 ≤ g.length ∧ (g.head? = some 'ㅋ' ∨ g.head? = some 'ㅎ')
    · obtain ⟨a, ps, h1, h2, h3, h4, h5, h6⟩ := ihg (k + 1)
      refine ⟨[], (k, a) :: ps, ?_, List.nil_prefix, ?_, ?_, ?_, ?_⟩
      · rw [specLaughterJaRuns, if_pos hcond]
        rw [flattenP] at h1 ⊢
        simp only [List.map_cons, List.flatten_cons, List.nil_append,
          List.append_assoc, h1]
      · intro q hq
        rw [List.flatten_cons]
        rcases List.mem_cons.mp hq with h7 | h7
        · subst h7
          exact h2.isInfix.trans (List.suffix_append _ _).isInfix
        · exact (h3 q h7).trans (List.suffix_append _ _).isInfix
      · rw [specLaughterJaRuns, if_pos hcond]
        simp only [List.map_cons, List.length_cons, List.range'_succ, h4]
      · rw [specLaughterJaRuns, if_pos hcond]
        intro rp hrp
        rcases List.mem_cons.mp hrp with h7 | h7
        · subst h7
          constructor
          · intro hnil
            have := congrArg List.length hnil
            simp only [List.length_replicate, List.length_nil] at this
            omega
          · intro x hx
            have hxw : x = 'w' := List.eq_of_mem_replicate hx
            subst hxw
            decide
        · exact h5 rp h7
      · rw [specLaughterJaRuns, if_pos hcond, specLaughterJaRestore,
          if_pos hcond]
        simp only [List.zipWith_cons_cons, List.flatten_cons, List.nil_append,
          List.append_assoc, h6]
    · obtain ⟨a, ps, h1, h2, h3, h4, h5, h6⟩ := ihg k
      refine ⟨g ++ a, ps, ?_, ?_, ?_, ?_, ?_, ?_⟩
      · rw [specLaughterJaRuns, if_neg hcond]
        rw [flattenP] at h1 ⊢
        simp only [List.append_assoc, h1]
      · rw [List.flatten_cons]
        obtain ⟨t, ht⟩ := h2
        exact ⟨t, by rw [List.append_assoc, ht]⟩
      · intro q hq
        rw [List.flatten_cons]
        exact (h3 q hq).trans (List.suffix_append _ _).isInfix
      · rw [specLaughterJaRuns, if_neg hcond]
        exact h4
      · rw [specLaughterJaRuns, if_neg hcond]
        exact h5
      · rw [specLaughterJaRuns, if_neg hcond, specLaughterJaRestore,
          if_neg hcond]
        simp only [List.append_assoc, h6]

/-- Structure of the "ko" spec output, as for the "ja" side. -/
theorem specLaughterKoRuns_structure :
    ∀ (runs : List (List Char)) (k : Nat),
      ∃ (a : List Char) (ps : List (Nat × List Char)),
        (specLaughterKoRuns runs k).1 = flattenP lauTag a ps ∧
        a <+: runs.flatten ∧
        (∀ q ∈ ps, q.2 <:+: runs.flatten) ∧
        ps.map Prod.fst = List.range' k (specLaughterKoRuns runs k).2.length ∧
        (∀ rp ∈ (specLaughterKoRuns runs k).2, RepOK lauTag rp) ∧
        a ++ (List.zipWith (fun rp q => rp ++ q.2)
            (specLaughterKoRuns runs k).2 ps).flatten =
          specLaughterKoRestore runs := by
  intro runs
  induction runs with
  | nil =>
    intro k
    refine ⟨[], [], ?_, List.nil_prefix, ?_, ?_, ?_, ?_⟩
    · rw [specLaughterKoRuns, flattenP]; rfl
    · intro q hq; exact absurd hq (List.not_mem_nil q)
    · rw [specLaughterKoRuns]; rfl
    · rw [specLaughterKoRuns]
      intro rp hrp
      exact absurd hrp (List.not_mem_nil rp)
    · rw [specLaughterKoRuns, specLaughterKoRestore]; rfl
  | cons g gs ihg =>
    intro k
    by_cases hcond : 3 ≤ g.length ∧ g.head? = some 'w' ∧
        nextRunHead gs ≠ some '.'
    · obtain ⟨a, ps, h1, h2, h3, h4, h5, h6⟩ := ihg (k + 1)
      refine ⟨[], (k, a) :: ps, ?_, List.nil_prefix, ?_, ?_, ?_, ?_⟩
      · rw [specLaughterKoRuns, if_pos hcond]
        rw [flattenP] at h1 ⊢
        simp only [List.map_cons, List.flatten_cons, List.nil_append,
          List.append_assoc, h1]
      · intro q hq
        rw [List.flatten_cons]
        rcases List.mem_cons.mp hq with h7 | h7
        · subst h7
          exact h2.isInfix.trans (List.suffix_append _ _).isInfix
        · exact (h3 q h7).trans (List.suffix_append _ _).isInfix
      · rw [specLaughterKoRuns, if_pos hcond]
        simp only [List.map_cons, List.length_cons, List.range'_succ, h4]
      · rw [specLaughterKoRuns, if_pos hcond]
        intro rp hrp
        rcases List.mem_cons.mp hrp with h7 | h7
        · subst h7
          constructor
          · intro hnil
            have := congrArg List.length hnil
            simp only [List.length_replicate, List.length_nil] at this
            omega
          · intro x hx
            have hxk : x = 'ㅋ' := List.eq_of_mem_replicate hx
            subst hxk
            decide
        · exact h5 rp h7
      · rw [specLaughterKoRuns, if_pos hcond, specLaughterKoRestore,
          if_pos hcond]
        simp only [List.zipWith_cons_cons, List.flatten_cons, List.nil_append,
          List.append_assoc, h6]
    · obtain ⟨a, ps, h1, h2, h3, h4, h5, h6⟩ := ihg k
      refine ⟨g ++ a, ps, ?_, ?_, ?_, ?_, ?_, ?_⟩
      · rw [specLaughterKoRuns, if_neg hcond]
        rw [flattenP] at h1 ⊢
        simp only [List.append_assoc, h1]
      · rw [List.flatten_cons]
        obtain ⟨t, ht⟩ := h2
        exact ⟨t, by rw [List.append_assoc, ht]⟩
      · intro q hq
        rw [List.flatten_cons]
        exact (h3 q hq).trans (List.suffix_append _ _).isInfix
      · rw [specLaughterKoRuns, if_neg hcond]
        exact h4
      · rw [specLaughterKoRuns, if_neg hcond]
        exact h5
      · rw [specLaughterKoRuns, if_neg hcond, specLaughterKoRestore,
          if_neg hcond]
        simp only [List.append_assoc, h6]

/-- Round trip for the "ja" laughter pass over run-form output. -/
theorem laughter_roundtrip_ja (text : List Char)
    (hocc : occurs lauTag text = false) :
    restoreAux lauTag (specLaughterJaRuns (charRuns text) 0).1 0
        (specLaughterJaRuns (charRuns text) 0).2 =
      specLaughterJaRestore (charRuns text) := by
  obtain ⟨a, ps, h1, h2, h3, h4, h5, h6⟩ :=
    specLaughterJaRuns_structure (charRuns text) 0
  rw [charRuns_flatten text.length text (Nat.le_refl _)] at h2 h3
  rw [h1]
  rw [restoreAux_flattenP tagOK_lauTag _ ps a 0
    (occurs_false_of_sub hocc h2.isInfix)
    (fun q hq => occurs_false_of_sub hocc (h3 q hq))
    (fun rp hrp => h5 rp hrp) h4]
  exact h6

/-- Round trip for the "ko" laughter pass over run-form output. -/
theorem laughter_roundtrip_ko (text : List Char)
    (hocc : occurs lauTag text = false) :
    restoreAux lauTag (specLaughterKoRuns (charRuns text) 0).1 0
        (specLaughterKoRuns (charRuns text) 0).2 =
      specLaughterKoRestore (charRuns text) := by
  obtain ⟨a, ps, h1, h2, h3, h4, h5, h6⟩ :=
    specLaughterKoRuns_structure (charRuns text) 0
  rw [charRuns_flatten text.length text (Nat.le_refl _)] at h2 h3
  rw [h1]
  rw [restoreAux_flattenP tagOK_lauTag _ ps a 0
    (occurs_false_of_sub hocc h2.isInfix)
    (fun q hq => occurs_false_of_sub hocc (h3 q hq))
    (fun rp hrp => h5 rp hrp) h4]
  exact h6

/-- The claim C6 as stated is false for target "ko": a maximal run of
three or more w immediately followed by a dot (here in "wwww.x") is NOT
replaced — the code leaves it verbatim and records no replacement
(URL protection), whereas the claim requires every such run to become a
placeholder. -/
theorem C6_counterexample :
    protectLaughter "wwww.x".toList "ko" ≠
      specLaughterKoAllRuns (charRuns "wwww.x".toList) 0 := by
  have h1 : protectLaughter "wwww.x".toList "ko" = ("wwww.x".toList, []) := by
    simp [protectLaughter, findWRuns, buildKo, countWhile, phStr, natDigits,
      digitChar, lauTag, List.take, List.drop, List.getD, beq_eq_decide]
  have h2 : specLaughterKoAllRuns (charRuns "wwww.x".toList) 0 =
      ("__LAU0__.x".toList, ["ㅋㅋㅋㅋ".toList]) := by
    simp [specLaughterKoAllRuns, charRuns, countWhile, phStr, natDigits,
      digitChar, lauTag, List.take, List.drop, beq_eq_decide]
  rw [h1, h2]
  decide

/-- C6 (amended): `protectLaughter` with target "ja" replaces each maximal
run of two or more ㅋ or two or more ㅎ by a placeholder storing one "w"
per rune; with target "ko" it replaces each maximal run of three or more w
by a placeholder storing one "ㅋ" per character, EXCEPT runs immediately
followed by a dot, which are kept verbatim; for any other target language
the text is returned unchanged with no replacements. -/
theorem C6_laughter_protection :
    ∀ (text : List Char) (lang : String),
      protectLaughter text lang = specLaughter text lang := by
  intro text lang
  by_cases hja : lang = "ja"
  · subst hja
    rw [specLaughter, if_pos rfl]
    exact protectLaughterJa_eq text
  · by_cases hko : lang = "ko"
    · subst hko
      rw [specLaughter, if_neg (by decide), if_pos rfl]
      exact protectLaughterKo_eq text
    · rw [protectLaughter, if_neg hja, if_neg hko, specLaughter,
        if_neg hja, if_neg hko]

/-- C9: in `protectLaughter` with target "ko", a matched run of three or
more w immediately followed by a dot is copied verbatim, yielding no
placeholder and no stored replacement, while every other matched run is
replaced — the run-based spec `specLaughterKoRuns` encodes exactly this
dot exception; concretely, in "www.a wwww" the URL-like prefix run is kept
and only the later run becomes a placeholder. -/
theorem C9_laughter_dot_skip :
    (∀ text : List Char, protectLaughter text "ko" =
        specLaughterKoRuns (charRuns text) 0) ∧
    protectLaughter "www.a wwww".toList "ko" =
      ("www.a __LAU0__".toList, ["ㅋㅋㅋㅋ".toList]) := by
  constructor
  · exact protectLaughterKo_eq
  · simp [protectLaughter, findWRuns, buildKo, countWhile, phStr, natDigits,
      digitChar, lauTag, List.take, List.drop, List.getD, beq_eq_decide]

/-- The claim C5 as stated is false: an input that already contains a
placeholder string (here `__LAU0__`) collides with the placeholder
introduced for the ㅋㅋ run, and the restore pass rewrites the pre-existing
occurrence too, so text outside the protected spans is changed. -/
theorem C5_counterexample :
    restoreLaughter (protectLaughter "__LAU0__ ㅋㅋ".toList "ja").1
        (protectLaughter "__LAU0__ ㅋㅋ".toList "ja").2 ≠
      specLaughterRestore "__LAU0__ ㅋㅋ".toList "ja" := by
  have h1 : protectLaughter "__LAU0__ ㅋㅋ".toList "ja" =
      ("__LAU0__ __LAU0__".toList, ["ww".toList]) := by
    simp [protectLaughter, protectLaughterJaLoop, countWhile, phStr,
      natDigits, digitChar, lauTag, List.take, List.drop, beq_eq_decide]
  have h2 : specLaughterRestore "__LAU0__ ㅋㅋ".toList "ja" =
      "__LAU0__ ww".toList := by
    simp [specLaughterRestore, specLaughterJaRestore, charRuns, countWhile,
      List.take, List.drop, beq_eq_decide]
  rw [h1, h2]
  have h3 : restoreLaughter "__LAU0__ __LAU0__".toList ["ww".toList] =
      "ww ww".toList := by
    rw [restoreLaughter]
    simp [restoreAux, replaceAll, phStr, natDigits, digitChar, lauTag,
      List.take, List.drop, List.isPrefixOf, beq_eq_decide]
  rw [h3]
  decide

/-- C5 (amended): for input text free of the tag substrings "CUR" and
"LAU", every placeholder occurrence in the protected output was introduced
by the protection pass itself, and the restore passes rewrite exactly the
protected spans, leaving all other text unchanged: restoration of the
currency pass yields the spec-side currency rewrite, and restoration of
the laughter pass yields the input with each protected laughter run
rewritten to its stored replacement. -/
theorem C5_placeholder_exactness (text : List Char) (lang : String)
    (hcur : occurs curTag text = false) (hlau : occurs lauTag text = false) :
    restoreCurrency (protectCurrency text lang).1
        (protectCurrency text lang).2 = specCurrencyLang text lang ∧
    restoreLaughter (protectLaughter text lang).1
        (protectLaughter text lang).2 = specLaughterRestore text lang := by
  constructor
  · by_cases hja : lang = "ja"
    · subst hja
      rw [protectCurrency, if_pos rfl, specCurrencyLang, if_pos rfl,
        restoreCurrency]
      exact currency_roundtrip_loop _ _ _ wonToJapanese_ok text hcur
    · by_cases hko : lang = "ko"
      · subst hko
        rw [protectCurrency, if_neg (by simp), if_pos rfl, specCurrencyLang,
          if_neg (by simp), if_pos rfl, restoreCurrency]
        exact currency_roundtrip_loop _ _ _ yenToKorean_ok text hcur
      · rw [protectCurrency, if_neg hja, if_neg hko, specCurrencyLang,
          if_neg hja, if_neg hko, restoreCurrency, restoreAux]
  · by_cases hja : lang = "ja"
    · subst hja
      rw [protectLaughterJa_eq text, specLaughterRestore, if_pos rfl,
        restoreLaughter]
      exact laughter_roundtrip_ja text hlau
    · by_cases hko : lang = "ko"
      · subst hko
        rw [protectLaughterKo_eq text, specLaughterRestore,
          if_neg (by decide), if_pos rfl, restoreLaughter]
        exact laughter_roundtrip_ko text hlau
      · rw [protectLaughter, if_neg hja, if_neg hko, specLaughterRestore,
          if_neg hja, if_neg hko, restoreLaughter, restoreAux]

/-- Witness for the amended C5 at a concrete input containing both a
currency expression and a laughter run. -/
theorem C5_witness :
    restoreCurrency (protectCurrency "좋아요 ㅋㅋㅋ 5천 원이에요".toList "ja").1
        (protectCurrency "좋아요 ㅋㅋㅋ 5천 원이에요".toList "ja").2 =
      specCurrencyLang "좋아요 ㅋㅋㅋ 5천 원이에요".toList "ja" ∧
    restoreLaughter (protectLaughter "좋아요 ㅋㅋㅋ 5천 원이에요".toList "ja").1
        (protectLaughter "좋아요 ㅋㅋㅋ 5천 원이에요".toList "ja").2 =
      specLaughterRestore "좋아요 ㅋㅋㅋ 5천 원이에요".toList "ja" :=
  C5_placeholder_exactness "좋아요 ㅋㅋㅋ 5천 원이에요".toList "ja"
    (by decide) (by decide)

end BambooForest
